import Mathlib

/-!
Verification development for the legal-contract analysis pipeline
(document text extraction, folder aggregation, text-region filtering, and
LLM response normalization).

Python strings are embedded as lists of characters (`PyStr`).  Machine-level
details that cannot influence the verified properties (logging, the HTTP
transport, the OCR library internals) are abstracted as oracle parameters;
pure algorithmic code is translated operation by operation from the source.
Python's `json.loads` (standard library, strict JSON) is modelled by an
executable recursive-descent reader over the same grammar; floating point
numeric literals are outside the model (no claim involves them).
-/

/-- Characters Python's str.strip() and str.split() treat as whitespace
(ASCII subset). -/
def isPySpace (c : Char) : Bool :=
  c == ' ' || c == '\t' || c == '\n' || c == '\r' || c == Char.ofNat 11 || c == Char.ofNat 12

/-- Embedding of a Python str as a list of characters. -/
abbrev PyStr := List Char

/-- Conversion from a Lean string literal to the embedding. -/
def pyStr (s : String) : PyStr := s.data

/-- The double-quote character. -/
def qc : Char := Char.ofNat 34

/-- The single-quote character. -/
def apoc : Char := Char.ofNat 39

/-- The opening curly brace character. -/
def obrace : Char := Char.ofNat 123

/-- The closing curly brace character. -/
def cbrace : Char := Char.ofNat 125

/-- The backslash character. -/
def bslash : Char := Char.ofNat 92

/-- Python str.lstrip() (ASCII whitespace). -/
def pyStripL (s : PyStr) : PyStr := s.dropWhile isPySpace

/-- Python str.rstrip() (ASCII whitespace). -/
def pyStripR (s : PyStr) : PyStr := (s.reverse.dropWhile isPySpace).reverse

/-- Python str.strip() (ASCII whitespace). -/
def pyStrip (s : PyStr) : PyStr := pyStripL (pyStripR s)

/-- Python str.lower() (ASCII case folding). -/
def pyLower (s : PyStr) : PyStr := s.map Char.toLower

/-- Python str.find for a single character: index of first occurrence. -/
def pyFind (c : Char) : PyStr → Option Nat
  | [] => none
  | d :: l => if d = c then some 0 else (pyFind c l).map (· + 1)

/-- Python str.rfind for a single character: index of last occurrence. -/
def pyRfind (c : Char) (s : PyStr) : Option Nat :=
  (pyFind c s.reverse).map (fun i => s.length - 1 - i)

/-- Python substring containment (the `in` operator on str). -/
def pyContains (hay needle : PyStr) : Bool :=
  match hay with
  | [] => needle.isEmpty
  | _ :: rest => needle.isPrefixOf hay || pyContains rest needle

/-- Python str.split() with no argument: maximal runs of non-whitespace.
Auxiliary accumulator form (accumulator holds the current token reversed). -/
def pySplitAux : PyStr → PyStr → List PyStr
  | [], acc => if acc.isEmpty then [] else [acc.reverse]
  | c :: cs, acc =>
    if isPySpace c then
      if acc.isEmpty then pySplitAux cs [] else acc.reverse :: pySplitAux cs []
    else pySplitAux cs (c :: acc)

/-- Python str.split() with no argument. -/
def pySplit (s : PyStr) : List PyStr := pySplitAux s []

/-- Model of os.path.basename (the repository runs on Windows paths, so both
separators are recognized; drive letters are outside the model). -/
def pyBasename (s : PyStr) : PyStr :=
  (s.reverse.takeWhile (fun c => !(c = '/' || c = bslash))).reverse

/-- Association-list read modelling Python dict access of string records. -/
def alGet (k : PyStr) : List (PyStr × PyStr) → Option PyStr
  | [] => none
  | (k', v) :: r => if k' = k then some v else alGet k r

/-- Association-list write modelling Python dict item assignment: replaces in
place when the key is present, appends otherwise (insertion order kept). -/
def alSet (k v : PyStr) : List (PyStr × PyStr) → List (PyStr × PyStr)
  | [] => [(k, v)]
  | (k', v') :: r => if k' = k then (k, v) :: r else (k', v') :: alSet k v r

/-! ## Model of Python json.loads (strict JSON) -/

/-- A JSON value as seen by `ResponseParser._build_result_from_json`.  The
parser only ever reads top-level fields, so nested containers are recorded
by their emptiness (for Python truthiness) and their Python `str()` rendering
(for the string coercion); their inner structure is not needed. -/
inductive JsonVal where
  | jnull : JsonVal
  | jbool (b : Bool) : JsonVal
  | jnum (n : Int) : JsonVal
  | jstr (s : PyStr) : JsonVal
  | jarr (empt : Bool) (rep : PyStr) : JsonVal
  | jobjv (empt : Bool) (rep : PyStr) : JsonVal
deriving DecidableEq

/-- A parsed top-level JSON document: either an object (the only case the
response builder uses) or any other value. -/
inductive JsonTop where
  | tobj (fields : List (PyStr × JsonVal)) : JsonTop
  | tval (v : JsonVal) : JsonTop
deriving DecidableEq

/-- Python truthiness (`not value`) of a JSON-decoded value. -/
def jsonFalsy : JsonVal → Bool
  | .jnull => true
  | .jbool b => !b
  | .jnum n => n == 0
  | .jstr s => s.isEmpty
  | .jarr e _ => e
  | .jobjv e _ => e

/-- Python str() of a JSON-decoded value. -/
def pyStrOfJson : JsonVal → PyStr
  | .jnull => pyStr ("None")
  | .jbool true => pyStr ("True")
  | .jbool false => pyStr ("False")
  | .jnum n => (toString n).data
  | .jstr s => s
  | .jarr _ r => r
  | .jobjv _ r => r

/-- Python repr() of a JSON-decoded value, as used inside container
renderings (strings single-quoted; exotic escaping outside the model). -/
def pyReprOfJson : JsonVal → PyStr
  | .jstr s => apoc :: (s ++ [apoc])
  | v => pyStrOfJson v

/-- Python dict lookup after json.loads: duplicate keys keep the last value. -/
def jsonObjGet (k : PyStr) (fs : List (PyStr × JsonVal)) : Option JsonVal :=
  fs.foldl (fun acc p => if p.1 = k then some p.2 else acc) none

/-- JSON whitespace skipping. -/
def jsonSkipWs (s : PyStr) : PyStr :=
  s.dropWhile (fun c => c == ' ' || c == '\t' || c == '\n' || c == '\r')

/-- Hexadecimal digit value. -/
def hexVal (c : Char) : Option Nat :=
  if '0' ≤ c ∧ c ≤ '9' then some (c.toNat - '0'.toNat)
  else if 'a' ≤ c ∧ c ≤ 'f' then some (c.toNat - 'a'.toNat + 10)
  else if 'A' ≤ c ∧ c ≤ 'F' then some (c.toNat - 'A'.toNat + 10)
  else none

/-- JSON string body reader (after the opening quote); returns the decoded
content and the rest after the closing quote.  Strict mode: unescaped control
characters are rejected.  Fuel-driven recursion. -/
def parseJsonString : Nat → PyStr → Option (PyStr × PyStr)
  | 0, _ => none
  | _ + 1, [] => none
  | fuel + 1, c :: rest =>
    if c = qc then some ([], rest)
    else if c = bslash then
      match rest with
      | [] => none
      | e :: rest2 =>
        let cont := fun (ch : Char) (r : PyStr) =>
          (parseJsonString fuel r).map (fun p => (ch :: p.1, p.2))
        if e = qc then cont qc rest2
        else if e = bslash then cont bslash rest2
        else if e = '/' then cont '/' rest2
        else if e = 'b' then cont (Char.ofNat 8) rest2
        else if e = 'f' then cont (Char.ofNat 12) rest2
        else if e = 'n' then cont '\n' rest2
        else if e = 'r' then cont '\r' rest2
        else if e = 't' then cont '\t' rest2
        else if e = 'u' then
          match rest2 with
          | h1 :: h2 :: h3 :: h4 :: rest3 =>
            match hexVal h1, hexVal h2, hexVal h3, hexVal h4 with
            | some a, some b, some cc, some d =>
              cont (Char.ofNat (((a * 16 + b) * 16 + cc) * 16 + d)) rest3
            | _, _, _, _ => none
          | _ => none
        else none
    else if c.toNat < 32 then none
    else (parseJsonString fuel rest).map (fun p => (c :: p.1, p.2))

/-- JSON integer literal reader (no fraction or exponent: floating point is
outside the model).  Enforces the no-leading-zero rule. -/
def parseJsonInt (s : PyStr) : Option (Int × PyStr) :=
  let (neg, s1) := match s with
    | '-' :: r => (true, r)
    | _ => (false, s)
  let digits := s1.takeWhile Char.isDigit
  let rest := s1.dropWhile Char.isDigit
  if digits.isEmpty then none
  else if digits.head? = some '0' ∧ digits.length ≠ 1 then none
  else
    match rest with
    | '.' :: _ => none
    | 'e' :: _ => none
    | 'E' :: _ => none
    | _ =>
      let n : Nat := digits.foldl (fun acc c => acc * 10 + (c.toNat - '0'.toNat)) 0
      some (if neg then -(n : Int) else (n : Int), rest)

/-- Rendering of a decoded JSON object as Python str(dict). -/
def pyReprObj (fs : List (PyStr × JsonVal)) : PyStr :=
  obrace :: (List.intercalate (pyStr (", "))
    (fs.map (fun p => (apoc :: (p.1 ++ [apoc])) ++ pyStr (": ") ++ pyReprOfJson p.2)) ++ [cbrace])

/-- Rendering of a decoded JSON array as Python str(list). -/
def pyReprArr (vs : List JsonVal) : PyStr :=
  '[' :: (List.intercalate (pyStr (", ")) (vs.map pyReprOfJson) ++ [']'])

/-- Request selector for the single-function JSON reader (kept as one
structurally fuel-recursive function so that kernel reduction works). -/
inductive JReq where
  | rval : JReq
  | robj : JReq
  | rmem : JReq
  | rarr : JReq
  | relems : JReq

/-- Result payload of the JSON reader. -/
inductive JOut where
  | oval (v : JsonVal) : JOut
  | ofields (fs : List (PyStr × JsonVal)) : JOut
  | oelems (vs : List JsonVal) : JOut

/-- The JSON grammar reader: one value, an object body (after the opening
brace), an object member list (at a quoted key), an array body (after the
opening bracket), or an array element list. -/
def parseJ : Nat → JReq → PyStr → Option (JOut × PyStr)
  | 0, _, _ => none
  | fuel + 1, JReq.rval, s =>
    match jsonSkipWs s with
    | [] => none
    | c :: rest =>
      if c = qc then
        (parseJsonString (rest.length + 1) rest).map (fun p => (JOut.oval (JsonVal.jstr p.1), p.2))
      else if c = obrace then
        match parseJ fuel JReq.robj rest with
        | some (JOut.ofields fs, r) =>
          some (JOut.oval (JsonVal.jobjv fs.isEmpty (pyReprObj fs)), r)
        | _ => none
      else if c = '[' then
        match parseJ fuel JReq.rarr rest with
        | some (JOut.oelems vs, r) =>
          some (JOut.oval (JsonVal.jarr vs.isEmpty (pyReprArr vs)), r)
        | _ => none
      else if c = 't' then
        if (pyStr ("rue")).isPrefixOf rest then some (JOut.oval (JsonVal.jbool true), rest.drop 3)
        else none
      else if c = 'f' then
        if (pyStr ("alse")).isPrefixOf rest then some (JOut.oval (JsonVal.jbool false), rest.drop 4)
        else none
      else if c = 'n' then
        if (pyStr ("ull")).isPrefixOf rest then some (JOut.oval JsonVal.jnull, rest.drop 3)
        else none
      else (parseJsonInt (c :: rest)).map (fun p => (JOut.oval (JsonVal.jnum p.1), p.2))
  | fuel + 1, JReq.robj, s =>
    match jsonSkipWs s with
    | [] => none
    | c :: rest =>
      if c = cbrace then some (JOut.ofields [], rest)
      else if c = qc then parseJ fuel JReq.rmem (c :: rest)
      else none
  | fuel + 1, JReq.rmem, s =>
    match s with
    | [] => none
    | c :: rest =>
      if c = qc then
        match parseJsonString (rest.length + 1) rest with
        | some (k, r1) =>
          match jsonSkipWs r1 with
          | ':' :: r2 =>
            match parseJ fuel JReq.rval r2 with
            | some (JOut.oval v, r3) =>
              match jsonSkipWs r3 with
              | ',' :: r4 =>
                (match parseJ fuel JReq.rmem (jsonSkipWs r4) with
                 | some (JOut.ofields fs, r5) => some (JOut.ofields ((k, v) :: fs), r5)
                 | _ => none)
              | d :: r4 => if d = cbrace then some (JOut.ofields [(k, v)], r4) else none
              | [] => none
            | _ => none
          | _ => none
        | none => none
      else none
  | fuel + 1, JReq.rarr, s =>
    match jsonSkipWs s with
    | [] => none
    | c :: rest =>
      if c = ']' then some (JOut.oelems [], rest)
      else parseJ fuel JReq.relems (c :: rest)
  | fuel + 1, JReq.relems, s =>
    match parseJ fuel JReq.rval s with
    | some (JOut.oval v, r1) =>
      match jsonSkipWs r1 with
      | ',' :: r2 =>
        (match parseJ fuel JReq.relems r2 with
         | some (JOut.oelems vs, r3) => some (JOut.oelems (v :: vs), r3)
         | _ => none)
      | d :: r2 => if d = ']' then some (JOut.oelems [v], r2) else none
      | [] => none
    | _ => none

/-- Model of json.loads: full-input strict parse. -/
def json_loads (s : PyStr) : Option JsonTop :=
  match jsonSkipWs s with
  | c :: rest =>
    if c = obrace then
      match parseJ (2 * rest.length + 8) JReq.robj rest with
      | some (JOut.ofields fs, r) => if jsonSkipWs r = [] then some (.tobj fs) else none
      | _ => none
    else
      match parseJ (2 * (c :: rest).length + 8) JReq.rval (c :: rest) with
      | some (JOut.oval v, r) => if jsonSkipWs r = [] then some (.tval v) else none
      | _ => none
  | [] => none


/-! ## ResponseParser (src/core/response_parser.py) -/

/-- The declared schema keys of the detailed analysis record, in the order
`_get_default_result` declares them. -/
def analysis_keys : List PyStr :=
  [pyStr ("company"), pyStr ("contract_name"), pyStr ("contract_counterparty"),
   pyStr ("effective_date"), pyStr ("renewal_termination_date"),
   pyStr ("name_change_requires_notification"), pyStr ("clause_reference"),
   pyStr ("is_assignment"), pyStr ("assignment_clause_reference"),
   pyStr ("material_corporate_structure_clauses"), pyStr ("notices_clause_present"),
   pyStr ("action_required"), pyStr ("recommended_action")]

/-- ResponseParser._get_default_result. -/
def get_default_result (company_name : PyStr) : List (PyStr × PyStr) :=
  [(pyStr ("company"), company_name),
   (pyStr ("contract_name"), pyStr ("Not Specified")),
   (pyStr ("contract_counterparty"), pyStr ("Not Specified")),
   (pyStr ("effective_date"), pyStr ("Not Specified")),
   (pyStr ("renewal_termination_date"), pyStr ("Not Specified")),
   (pyStr ("name_change_requires_notification"), pyStr ("Not Specified")),
   (pyStr ("clause_reference"), pyStr ("N/A")),
   (pyStr ("is_assignment"), pyStr ("Not Specified")),
   (pyStr ("assignment_clause_reference"), pyStr ("N/A")),
   (pyStr ("material_corporate_structure_clauses"), pyStr ("Not Specified")),
   (pyStr ("notices_clause_present"), pyStr ("Not Specified")),
   (pyStr ("action_required"), pyStr ("Not Specified")),
   (pyStr ("recommended_action"), pyStr ("Not Specified"))]

/-- The clean_value helper inside _build_result_from_json:
`if not value or value == '': return 'Not Specified'; return str(value).strip()`. -/
def clean_value : Option JsonVal → PyStr
  | none => pyStr ("Not Specified")
  | some v => if jsonFalsy v then pyStr ("Not Specified") else pyStrip (pyStrOfJson v)

/-- ResponseParser._build_result_from_json. -/
def build_result_from_json (data : List (PyStr × JsonVal)) (company_name : PyStr) :
    List (PyStr × PyStr) :=
  [(pyStr ("company"), company_name),
   (pyStr ("contract_name"), clean_value (jsonObjGet (pyStr ("contract_name")) data)),
   (pyStr ("contract_counterparty"), clean_value (jsonObjGet (pyStr ("contract_counterparty")) data)),
   (pyStr ("effective_date"), clean_value (jsonObjGet (pyStr ("effective_date")) data)),
   (pyStr ("renewal_termination_date"), clean_value (jsonObjGet (pyStr ("renewal_termination_date")) data)),
   (pyStr ("name_change_requires_notification"), clean_value (jsonObjGet (pyStr ("name_change_requires_notification")) data)),
   (pyStr ("clause_reference"), clean_value (jsonObjGet (pyStr ("clause_reference")) data)),
   (pyStr ("is_assignment"), clean_value (jsonObjGet (pyStr ("is_assignment")) data)),
   (pyStr ("assignment_clause_reference"), clean_value (jsonObjGet (pyStr ("assignment_clause_reference")) data)),
   (pyStr ("material_corporate_structure_clauses"), clean_value (jsonObjGet (pyStr ("material_corporate_structure_clauses")) data)),
   (pyStr ("notices_clause_present"), clean_value (jsonObjGet (pyStr ("notices_clause_present")) data)),
   (pyStr ("action_required"), clean_value (jsonObjGet (pyStr ("action_required")) data)),
   (pyStr ("recommended_action"), clean_value (jsonObjGet (pyStr ("recommended_action")) data))]

/-! Heuristic fallback patterns.  Each Python regex from
`_extract_from_text_fallback` is embedded as a dedicated leftmost-match
searcher with Python `re.search` semantics (leftmost starting position,
alternatives tried in order, greedy bounded repetition with backtracking,
IGNORECASE). -/

/-- Searcher for the quoted-substring regex: a double quote, one or more
non-quote characters (greedy), a closing double quote; group(1) is the run
between the quotes.  On failure at one start position the search restarts
one character later, which is equivalent to restarting at the next quote. -/
def first_quoted_match : PyStr → Option PyStr
  | [] => none
  | c :: rest =>
    if c = qc then
      match rest.dropWhile (fun d => d ≠ qc) with
      | d :: _ =>
        if d = qc ∧ rest.takeWhile (fun e => e ≠ qc) ≠ [] then
          some (rest.takeWhile (fun e => e ≠ qc))
        else first_quoted_match rest
      | [] => first_quoted_match rest
    else first_quoted_match rest

/-- Case-insensitive character equality (ASCII folding), modelling
re.IGNORECASE. -/
def ciEq (a b : Char) : Bool := a.toLower == b.toLower

/-- Case-insensitive literal prefix test. -/
def ciPre : PyStr → PyStr → Bool
  | [], _ => true
  | _ :: _, [] => false
  | p :: ps, c :: cs => ciEq p c && ciPre ps cs

/-- Searcher for an alternation of literal words, IGNORECASE: at each start
position the alternatives are tried in order; group(1) is the matched slice
of the input (original casing). -/
def search_alternatives (alts : List PyStr) : PyStr → Option PyStr
  | [] => none
  | c :: rest =>
    match alts.find? (fun a => ciPre a (c :: rest)) with
    | some a => some ((c :: rest).take a.length)
    | none => search_alternatives alts rest

/-- Word character test for the regex class backslash-w (ASCII model). -/
def isWordChar (c : Char) : Bool := c.isAlphanum || c = '_'

/-- Matcher for exactly n digits; returns the matched digits and the rest. -/
def mDigits : Nat → PyStr → Option (PyStr × PyStr)
  | 0, s => some ([], s)
  | _ + 1, [] => none
  | n + 1, c :: r =>
    if c.isDigit then (mDigits n r).map (fun p => (c :: p.1, p.2)) else none

/-- Matcher for one literal character; returns the rest. -/
def mChar (c : Char) : PyStr → Option PyStr
  | [] => none
  | d :: r => if d = c then some r else none

/-- Greedy backtracking matcher for one-or-two digits followed by a
continuation: two digits are preferred, one digit is the fallback.  The
continuation returns the text it matched; the result prepends the digits. -/
def mD12 (s : PyStr) (k : PyStr → Option PyStr) : Option PyStr :=
  match s with
  | [] => none
  | [a] => if a.isDigit then (k []).map (fun m => a :: m) else none
  | a :: b :: r =>
    if a.isDigit then
      if b.isDigit then
        match k r with
        | some m => some (a :: b :: m)
        | none => (k (b :: r)).map (fun m => a :: m)
      else (k (b :: r)).map (fun m => a :: m)
    else none

/-- First date alternative: four digits, dash, two digits, dash, two digits. -/
def dateAlt1 (s : PyStr) : Option PyStr :=
  match mDigits 4 s with
  | some (d1, r1) =>
    match mChar '-' r1 with
    | some r2 =>
      match mDigits 2 r2 with
      | some (d2, r3) =>
        match mChar '-' r3 with
        | some r4 => (mDigits 2 r4).map (fun p => d1 ++ '-' :: d2 ++ '-' :: p.1)
        | none => none
      | none => none
    | none => none
  | none => none

/-- Second date alternative: one-or-two digits, slash, one-or-two digits,
slash, four digits. -/
def dateAlt2 (s : PyStr) : Option PyStr :=
  mD12 s (fun r1 =>
    match mChar '/' r1 with
    | some r2 =>
      (mD12 r2 (fun r3 =>
        match mChar '/' r3 with
        | some r4 => (mDigits 4 r4).map (fun p => '/' :: p.1)
        | none => none)).map (fun m => '/' :: m)
    | none => none)

/-- Third date alternative: one-or-more word characters, a space, one-or-two
digits, an optional comma (preferred when present), a space, four digits.
A shorter word-run cannot be followed by the required space, so only the
maximal run needs to be tried. -/
def dateAlt3 (s : PyStr) : Option PyStr :=
  let run := s.takeWhile isWordChar
  let r := s.dropWhile isWordChar
  if run.isEmpty then none
  else
    match mChar ' ' r with
    | some r1 =>
      (mD12 r1 (fun r2 =>
        match mChar ',' r2 with
        | some r3 =>
          match mChar ' ' r3 with
          | some r4 =>
            match (mDigits 4 r4).map (fun p => ',' :: ' ' :: p.1) with
            | some m => some m
            | none =>
              match mChar ' ' r2 with
              | some r5 => (mDigits 4 r5).map (fun p => ' ' :: p.1)
              | none => none
          | none =>
            match mChar ' ' r2 with
            | some r5 => (mDigits 4 r5).map (fun p => ' ' :: p.1)
            | none => none
        | none =>
          match mChar ' ' r2 with
          | some r5 => (mDigits 4 r5).map (fun p => ' ' :: p.1)
          | none => none)).map (fun m => run ++ ' ' :: m)
    | none => none

/-- Searcher for the three-alternative date regex. -/
def date_search : PyStr → Option PyStr
  | [] => none
  | c :: rest =>
    match dateAlt1 (c :: rest) with
    | some m => some m
    | none =>
      match dateAlt2 (c :: rest) with
      | some m => some m
      | none =>
        match dateAlt3 (c :: rest) with
        | some m => some m
        | none => date_search rest

/-- Conditional field assignment: `if match: result[field] = match.group(1)`. -/
def condSet (o : Option PyStr) (k : PyStr) (l : List (PyStr × PyStr)) :
    List (PyStr × PyStr) :=
  match o with
  | some m => alSet k m l
  | none => l

/-- ResponseParser._extract_from_text_fallback: defaults, then one pattern
search per recoverable field, in the insertion order of the patterns dict. -/
def extract_from_text_fallback (text company_name : PyStr) : List (PyStr × PyStr) :=
  let r0 := get_default_result company_name
  let r1 := condSet (first_quoted_match text) (pyStr ("contract_name")) r0
  let r2 := condSet (first_quoted_match text) (pyStr ("contract_counterparty")) r1
  let r3 := condSet (date_search text) (pyStr ("effective_date")) r2
  let r4 := condSet (search_alternatives [pyStr ("Yes"), pyStr ("No"), pyStr ("Not Specified")] text)
              (pyStr ("name_change_requires_notification")) r3
  let r5 := condSet (search_alternatives [pyStr ("Yes"), pyStr ("No"), pyStr ("Unclear")] text)
              (pyStr ("is_assignment")) r4
  let r6 := condSet (search_alternatives [pyStr ("Notification Required"), pyStr ("Consent Required"),
                pyStr ("No Action Required"), pyStr ("Further Legal Review Recommended")] text)
              (pyStr ("action_required")) r5
  condSet (search_alternatives [pyStr ("Send Notification"), pyStr ("Request Consent"),
            pyStr ("No Action"), pyStr ("Escalate for Legal Review")] text)
    (pyStr ("recommended_action")) r6

/-- The markdown-unwrap steps at the top of parse_detailed_response: strip,
drop a leading triple-backtick-json or triple-backtick opener, drop a
trailing triple-backtick closer, strip again. -/
def preprocess_response (text : PyStr) : PyStr :=
  let t := pyStrip text
  let t := if (pyStr ("```json")).isPrefixOf t then t.drop 7 else t
  let t := if (pyStr ("```")).isPrefixOf t then t.drop 3 else t
  let t := if (pyStr ("```")).isSuffixOf t then t.take (t.length - 3) else t
  pyStrip t

/-- The brace-span extraction: first opening brace, last closing brace,
sliced when both exist in the right order. -/
def extract_json_span (t : PyStr) : Option PyStr :=
  match pyFind obrace t, pyRfind cbrace t with
  | some i, some j => if i < j then some ((t.drop i).take (j + 1 - i)) else none
  | _, _ => none

/-- ResponseParser.parse_detailed_response.  The outer try/except is the
final match arm: a decoded non-object top level would raise AttributeError
at `data.get`, which the outer handler turns into the full default record. -/
def parse_detailed_response (text company_name : PyStr) : List (PyStr × PyStr) :=
  match extract_json_span (preprocess_response text) with
  | some js =>
    match json_loads js with
    | some (.tobj data) => build_result_from_json data company_name
    | some (.tval _) => get_default_result company_name
    | none => extract_from_text_fallback (preprocess_response text) company_name
  | none => extract_from_text_fallback (preprocess_response text) company_name

/-! ## Record lemmas -/

/-- Setting an existing key leaves the key sequence of a record unchanged. -/
theorem alSet_keys (k v : PyStr) (l : List (PyStr × PyStr))
    (h : k ∈ l.map Prod.fst) : (alSet k v l).map Prod.fst = l.map Prod.fst := by
  induction l with
  | nil => simp at h
  | cons p r ih =>
    obtain ⟨a, b⟩ := p
    by_cases ha : a = k
    · subst ha
      simp [alSet]
    · simp only [List.map_cons] at h
      rcases List.mem_cons.mp h with h1 | h2
    
      · exact absurd h1.symm ha
      · simp [alSet, ha, ih h2]

/-- Conditional assignment of an existing key keeps the key sequence. -/
theorem condSet_keys (o : Option PyStr) (k : PyStr) (l : List (PyStr × PyStr))
    (h : k ∈ l.map Prod.fst) : (condSet o k l).map Prod.fst = l.map Prod.fst := by
  cases o with
  | none => rfl
  | some m => exact alSet_keys k m l h

/-- Key-preservation step specialized to the schema key list. -/
theorem condSet_keys_schema (o : Option PyStr) (k : PyStr) (l : List (PyStr × PyStr))
    (h : l.map Prod.fst = analysis_keys) (hk : k ∈ analysis_keys) :
    (condSet o k l).map Prod.fst = analysis_keys := by
  rw [condSet_keys _ _ _ (h ▸ hk), h]

/-- Reading the key just written returns the written value. -/
theorem alGet_alSet_self (k v : PyStr) (l : List (PyStr × PyStr)) :
    alGet k (alSet k v l) = some v := by
  induction l with
  | nil => simp [alSet, alGet]
  | cons p r ih =>
    obtain ⟨a, b⟩ := p
    by_cases ha : a = k
    · subst ha
      simp [alSet, alGet]
    · simp [alSet, alGet, ha, ih]

/-- Reading a different key is unaffected by a write. -/
theorem alGet_alSet_ne (k' k v : PyStr) (l : List (PyStr × PyStr)) (h : k' ≠ k) :
    alGet k' (alSet k v l) = alGet k' l := by
  induction l with
  | nil => simp [alSet, alGet, Ne.symm h]
  | cons p r ih =>
    obtain ⟨a, b⟩ := p
    by_cases ha : a = k
    · subst ha
      simp [alSet, alGet, Ne.symm h]
    · by_cases ha' : a = k'
      · subst ha'
        simp [alSet, alGet, ha]
      · simp [alSet, alGet, ha, ha', ih]

/-- Reading a different key is unaffected by a conditional write. -/
theorem alGet_condSet_ne (k' k : PyStr) (o : Option PyStr) (l : List (PyStr × PyStr))
    (h : k' ≠ k) : alGet k' (condSet o k l) = alGet k' l := by
  cases o with
  | none => rfl
  | some m => exact alGet_alSet_ne k' k m l h

/-- Reading the conditionally written key. -/
theorem alGet_condSet_self (k : PyStr) (o : Option PyStr) (l : List (PyStr × PyStr)) :
    alGet k (condSet o k l) = match o with | some m => some m | none => alGet k l := by
  cases o with
  | none => rfl
  | some m => exact alGet_alSet_self k m l

/-- The heuristic fallback record always carries exactly the declared schema
keys, in schema order. -/
theorem fallback_keys (t c : PyStr) :
    (extract_from_text_fallback t c).map Prod.fst = analysis_keys := by
  unfold extract_from_text_fallback
  exact condSet_keys_schema _ _ _
    (condSet_keys_schema _ _ _
      (condSet_keys_schema _ _ _
        (condSet_keys_schema _ _ _
          (condSet_keys_schema _ _ _
            (condSet_keys_schema _ _ _
              (condSet_keys_schema _ _ _ rfl (by decide))
              (by decide))
            (by decide))
          (by decide))
        (by decide))
      (by decide))
    (by decide)

/-- The heuristic fallback record is always tagged with the supplied
identifier: none of the pattern fields is the company field. -/
theorem fallback_company (t c : PyStr) :
    alGet (pyStr ("company")) (extract_from_text_fallback t c) = some c := by
  unfold extract_from_text_fallback
  rw [alGet_condSet_ne _ _ _ _ (by decide), alGet_condSet_ne _ _ _ _ (by decide),
      alGet_condSet_ne _ _ _ _ (by decide), alGet_condSet_ne _ _ _ _ (by decide),
      alGet_condSet_ne _ _ _ _ (by decide), alGet_condSet_ne _ _ _ _ (by decide),
      alGet_condSet_ne _ _ _ _ (by decide)]
  rfl

/-- C1: for every raw LLM output string and every identifier, the parse
operation returns normally (it is a total function in the embedding, with
the outer exception handler as its final branch), the returned record
carries exactly the declared schema keys (hence every key is present with a
string value), and it is tagged with the supplied identifier. -/
theorem c1_parse_total_and_schema_complete (text company_name : PyStr) :
    (parse_detailed_response text company_name).map Prod.fst = analysis_keys ∧
    alGet (pyStr ("company")) (parse_detailed_response text company_name) = some company_name := by
  cases hspan : extract_json_span (preprocess_response text) with
  | none =>
    have he : parse_detailed_response text company_name =
        extract_from_text_fallback (preprocess_response text) company_name := by
      simp only [parse_detailed_response, hspan]
    rw [he]
    exact ⟨fallback_keys _ _, fallback_company _ _⟩
  | some js =>
    cases hload : json_loads js with
    | none =>
      have he : parse_detailed_response text company_name =
          extract_from_text_fallback (preprocess_response text) company_name := by
        simp only [parse_detailed_response, hspan, hload]
      rw [he]
      exact ⟨fallback_keys _ _, fallback_company _ _⟩
    | some top =>
      cases top with
      | tobj data =>
        have he : parse_detailed_response text company_name =
            build_result_from_json data company_name := by
          simp only [parse_detailed_response, hspan, hload]
        rw [he]
        exact ⟨rfl, by simp [alGet, build_result_from_json]⟩
      | tval v =>
        have he : parse_detailed_response text company_name =
            get_default_result company_name := by
          simp only [parse_detailed_response, hspan, hload]
        rw [he]
        exact ⟨rfl, by simp [alGet, get_default_result]⟩

/-- C3 counterexample: on the patternless-prose probe input the parse result
is NOT the full-default record, because the heuristic yes/no patterns match
the word "no" occurring inside the prose (case-insensitively). -/
theorem c3_counterexample :
    parse_detailed_response (pyStr ("random prose with no JSON and no patterns")) (pyStr ("X")) ≠
      get_default_result (pyStr ("X")) := by decide

/-- C3 (amended): on that input the parse result equals the full-default
record tagged with the identifier except that the two yes/no fields
(name_change_requires_notification and is_assignment) are set to the slice
"no" matched inside the prose. -/
theorem c3_fallback_on_prose_probe :
    parse_detailed_response (pyStr ("random prose with no JSON and no patterns")) (pyStr ("X")) =
      alSet (pyStr ("is_assignment")) (pyStr ("no"))
        (alSet (pyStr ("name_change_requires_notification")) (pyStr ("no"))
          (get_default_result (pyStr ("X")))) := by decide

/-- C2 counterexample: strict JSON parsing succeeds on this input (shown by
the json_loads conjunct), the clause_reference field is the empty string,
and the built record replaces it with "Not Specified" rather than the
declared schema default "N/A" claimed for clause-reference-style fields. -/
theorem c2_counterexample :
    json_loads (pyStr ("\x7b\"clause_reference\": \"\"\x7d")) =
      some (JsonTop.tobj [(pyStr ("clause_reference"), JsonVal.jstr [])]) ∧
    alGet (pyStr ("clause_reference"))
        (parse_detailed_response (pyStr ("\x7b\"clause_reference\": \"\"\x7d")) (pyStr ("X"))) =
      some (pyStr ("Not Specified")) ∧
    pyStr ("Not Specified") ≠ pyStr ("N/A") := by
  refine ⟨by decide, by decide, by decide⟩

/-- C2 (amended): when the brace-delimited span of the preprocessed text
parses as a JSON object, the record is built by reading each schema field
from the parsed object by exact key name, and every field value equals
clean_value of that lookup: a field that is absent, null, an empty string,
or otherwise Python-falsy (false, zero, empty container) becomes
"Not Specified" — uniformly for ALL fields, including clause_reference and
assignment_clause_reference, whose "N/A" defaults apply only to the
full-default record — and any other present value is coerced to a trimmed
string. -/
theorem c2_json_path_field_values (t c js : PyStr) (data : List (PyStr × JsonVal))
    (h1 : extract_json_span (preprocess_response t) = some js)
    (h2 : json_loads js = some (JsonTop.tobj data)) :
    parse_detailed_response t c = build_result_from_json data c ∧
    (∀ k, k ∈ analysis_keys.tail →
      alGet k (build_result_from_json data c) = some (clean_value (jsonObjGet k data))) ∧
    clean_value none = pyStr ("Not Specified") ∧
    (∀ v, jsonFalsy v = true → clean_value (some v) = pyStr ("Not Specified")) ∧
    (∀ v, jsonFalsy v = false → clean_value (some v) = pyStrip (pyStrOfJson v)) := by
  refine ⟨?_, ?_, rfl, ?_, ?_⟩
  · simp only [parse_detailed_response, h1, h2]
  · intro k hk
    simp only [analysis_keys, List.tail_cons, List.mem_cons, List.not_mem_nil, or_false] at hk
    rcases hk with rfl | rfl | rfl | rfl | rfl | rfl | rfl | rfl | rfl | rfl | rfl | rfl
    all_goals simp +decide [build_result_from_json, alGet]
  · intro v hv
    simp [clean_value, hv]
  · intro v hv
    simp [clean_value, hv]

/-- Witness for the amended C2 theorem at a concrete input: a JSON response
with a padded contract name and nothing else. -/
theorem c2_json_path_witness :
    parse_detailed_response (pyStr ("\x7b\"contract_name\": \" Acme MSA \"\x7d")) (pyStr ("A")) =
      build_result_from_json [(pyStr ("contract_name"), JsonVal.jstr (pyStr (" Acme MSA ")))]
        (pyStr ("A")) ∧
    alGet (pyStr ("contract_name"))
        (build_result_from_json [(pyStr ("contract_name"), JsonVal.jstr (pyStr (" Acme MSA ")))]
          (pyStr ("A"))) =
      some (clean_value (jsonObjGet (pyStr ("contract_name"))
        [(pyStr ("contract_name"), JsonVal.jstr (pyStr (" Acme MSA ")))])) :=
  ⟨(c2_json_path_field_values (pyStr ("\x7b\"contract_name\": \" Acme MSA \"\x7d")) (pyStr ("A"))
      (pyStr ("\x7b\"contract_name\": \" Acme MSA \"\x7d"))
      [(pyStr ("contract_name"), JsonVal.jstr (pyStr (" Acme MSA ")))]
      (by decide) (by decide)).1,
   (c2_json_path_field_values (pyStr ("\x7b\"contract_name\": \" Acme MSA \"\x7d")) (pyStr ("A"))
      (pyStr ("\x7b\"contract_name\": \" Acme MSA \"\x7d"))
      [(pyStr ("contract_name"), JsonVal.jstr (pyStr (" Acme MSA ")))]
      (by decide) (by decide)).2.1 _ (by decide)⟩

/-- A text contains a double-quoted substring: some decomposition exhibits a
quote, a nonempty run of non-quote characters, and a closing quote. -/
def HasQuotedSpan (t : PyStr) : Prop :=
  ∃ a m b, t = a ++ qc :: (m ++ qc :: b) ∧ m ≠ [] ∧ ∀ c ∈ m, c ≠ qc

/-- Taking non-quote characters from a run-then-quote text yields the run. -/
theorem takeWhile_quoted_run (m b : PyStr) (hq : ∀ c ∈ m, c ≠ qc) :
    (m ++ qc :: b).takeWhile (fun e => e ≠ qc) = m := by
  induction m with
  | nil => simp [List.takeWhile_cons]
  | cons x xs ih =>
    have hx : x ≠ qc := hq x (by simp)
    simp only [List.cons_append, List.takeWhile_cons]
    rw [if_pos (by simpa using hx), ih (fun c hc => hq c (by simp [hc]))]

/-- Dropping non-quote characters from a run-then-quote text yields the
quote-led tail. -/
theorem dropWhile_quoted_run (m b : PyStr) (hq : ∀ c ∈ m, c ≠ qc) :
    (m ++ qc :: b).dropWhile (fun e => e ≠ qc) = qc :: b := by
  induction m with
  | nil => simp [List.dropWhile_cons]
  | cons x xs ih =>
    have hx : x ≠ qc := hq x (by simp)
    simp only [List.cons_append, List.dropWhile_cons]
    rw [if_pos (by simpa using hx), ih (fun c hc => hq c (by simp [hc]))]

/-- Quoted-pattern match at the exact position: the searcher returns the run
between the first pair of quotes when it starts the text. -/
theorem first_quoted_match_here (m b : PyStr) (hm : m ≠ []) (hq : ∀ c ∈ m, c ≠ qc) :
    first_quoted_match (qc :: (m ++ qc :: b)) = some m := by
  unfold first_quoted_match
  rw [if_pos rfl, dropWhile_quoted_run m b hq, takeWhile_quoted_run m b hq]
  simp [hm]

/-- Existence of a quoted-pattern match is preserved by prefixing. -/
theorem first_quoted_match_isSome_append (a t : PyStr)
    (h : (first_quoted_match t).isSome) : (first_quoted_match (a ++ t)).isSome := by
  induction a with
  | nil => simpa using h
  | cons c a' ih =>
    show (first_quoted_match (c :: (a' ++ t))).isSome
    unfold first_quoted_match
    by_cases hc : c = qc
    · rw [if_pos hc]
      cases hdw : (a' ++ t).dropWhile (fun d => d ≠ qc) with
      | nil => exact ih
      | cons d tail =>
        dsimp only
        by_cases hcond : d = qc ∧ (a' ++ t).takeWhile (fun e => e ≠ qc) ≠ []
        · rw [if_pos hcond]
          rfl
        · rw [if_neg hcond]
          exact ih
    · rw [if_neg hc]
      exact ih

/-- A successful quoted-pattern search exhibits a quoted span. -/
theorem first_quoted_match_hasSpan (t : PyStr) :
    ∀ s, first_quoted_match t = some s → HasQuotedSpan t := by
  induction t with
  | nil => intro s h; simp [first_quoted_match] at h
  | cons c rest ih =>
    intro s h
    have hext : HasQuotedSpan rest → HasQuotedSpan (c :: rest) := by
      rintro ⟨a, m, b, he, hm, hq⟩
      exact ⟨c :: a, m, b, by simp [he], hm, hq⟩
    unfold first_quoted_match at h
    by_cases hc : c = qc
    · rw [if_pos hc] at h
      cases hdw : rest.dropWhile (fun d => d ≠ qc) with
      | nil =>
        rw [hdw] at h
        exact hext (ih s h)
      | cons d tail =>
        rw [hdw] at h
        dsimp only at h
        by_cases hcond : d = qc ∧ rest.takeWhile (fun e => e ≠ qc) ≠ []
        · rw [if_pos hcond] at h
          obtain ⟨hd, htw⟩ := hcond
          refine ⟨[], rest.takeWhile (fun e => e ≠ qc), tail, ?_, htw, ?_⟩
          · rw [hc]
            simp only [List.nil_append]
            have hsplit := List.takeWhile_append_dropWhile (fun e => decide (e ≠ qc)) rest
            rw [hdw, hd] at hsplit
            exact congrArg (List.cons qc) hsplit.symm
          · intro x hx
            have := List.mem_takeWhile_imp hx
            simpa using this
        · rw [if_neg hcond] at h
          exact hext (ih s h)
    · rw [if_neg hc] at h
      exact hext (ih s h)

/-- C10: in the heuristic fallback path the contract_name and
contract_counterparty fields are extracted with the identical
quoted-substring pattern: they always agree; when the pattern matches both
carry its first match, otherwise both keep the default "Not Specified";
and the pattern matches exactly when the text contains a double-quoted
substring. -/
theorem c10_fallback_name_equals_counterparty (t c : PyStr) :
    alGet (pyStr ("contract_name")) (extract_from_text_fallback t c) =
      alGet (pyStr ("contract_counterparty")) (extract_from_text_fallback t c) ∧
    alGet (pyStr ("contract_name")) (extract_from_text_fallback t c) =
      some (match first_quoted_match t with
            | some m => m
            | none => pyStr ("Not Specified")) ∧
    ((first_quoted_match t).isSome ↔ HasQuotedSpan t) := by
  have hname : alGet (pyStr ("contract_name")) (extract_from_text_fallback t c) =
      some (match first_quoted_match t with
            | some m => m
            | none => pyStr ("Not Specified")) := by
    unfold extract_from_text_fallback
    rw [alGet_condSet_ne _ _ _ _ (by decide), alGet_condSet_ne _ _ _ _ (by decide),
        alGet_condSet_ne _ _ _ _ (by decide), alGet_condSet_ne _ _ _ _ (by decide),
        alGet_condSet_ne _ _ _ _ (by decide), alGet_condSet_ne _ _ _ _ (by decide)]
    rw [alGet_condSet_self]
    cases first_quoted_match t with
    | none => rfl
    | some m => rfl
  have hcp : alGet (pyStr ("contract_counterparty")) (extract_from_text_fallback t c) =
      some (match first_quoted_match t with
            | some m => m
            | none => pyStr ("Not Specified")) := by
    unfold extract_from_text_fallback
    rw [alGet_condSet_ne _ _ _ _ (by decide), alGet_condSet_ne _ _ _ _ (by decide),
        alGet_condSet_ne _ _ _ _ (by decide), alGet_condSet_ne _ _ _ _ (by decide),
        alGet_condSet_ne _ _ _ _ (by decide)]
    rw [alGet_condSet_self]
    cases hfq : first_quoted_match t with
    | none =>
      rw [alGet_condSet_ne _ _ _ _ (by decide)]
      rfl
    | some m => rfl
  refine ⟨hname.trans hcp.symm, hname, ?_, ?_⟩
  · intro h
    obtain ⟨s, hs⟩ := Option.isSome_iff_exists.mp h
    exact first_quoted_match_hasSpan t s hs
  · rintro ⟨a, m, b, he, hm, hq⟩
    rw [he]
    exact first_quoted_match_isSome_append a _
      (by rw [first_quoted_match_here m b hm hq]; rfl)

/-! ## Strip lemmas -/

/-- Unfolding of right-strip over a head character. -/
theorem pyStripR_cons (c : Char) (r : PyStr) :
    pyStripR (c :: r) =
      if pyStripR r = [] then (if isPySpace c then [] else [c]) else c :: pyStripR r := by
  unfold pyStripR
  rw [show (c :: r).reverse = r.reverse ++ [c] from by simp]
  rw [List.dropWhile_append]
  by_cases hr : r.reverse.dropWhile isPySpace = []
  · rw [if_pos (by simp [hr])]
    rw [if_pos (by simp [hr])]
    by_cases hc : isPySpace c
    · simp [List.dropWhile_cons, hc]
    · simp [List.dropWhile_cons, hc]
  · rw [if_neg (by simpa using hr)]
    rw [if_neg (by simpa using hr)]
    simp

/-- Right-strip is empty exactly when every character is whitespace. -/
theorem pyStripR_eq_nil_iff (s : PyStr) :
    pyStripR s = [] ↔ ∀ c ∈ s, isPySpace c = true := by
  unfold pyStripR
  constructor
  · intro h c hc
    have := List.dropWhile_eq_nil_iff.mp (by simpa using h)
    exact this c (by simpa using hc)
  · intro h
    have : s.reverse.dropWhile isPySpace = [] :=
      List.dropWhile_eq_nil_iff.mpr (fun x hx => h x (by simpa using hx))
    simp [this]

/-- Left-strip is empty exactly when every character is whitespace. -/
theorem pyStripL_eq_nil_iff (s : PyStr) :
    pyStripL s = [] ↔ ∀ c ∈ s, isPySpace c = true := by
  unfold pyStripL
  exact List.dropWhile_eq_nil_iff

/-- Left-strip is idempotent. -/
theorem pyStripL_idem (s : PyStr) : pyStripL (pyStripL s) = pyStripL s := by
  unfold pyStripL
  induction s with
  | nil => rfl
  | cons c r ih =>
    by_cases hc : isPySpace c
    · simp [List.dropWhile_cons, hc, ih]
    · simp [List.dropWhile_cons, hc]

/-- Right-strip is idempotent. -/
theorem pyStripR_idem (s : PyStr) : pyStripR (pyStripR s) = pyStripR s := by
  induction s with
  | nil => rfl
  | cons c r ih =>
    rw [pyStripR_cons]
    by_cases hr : pyStripR r = []
    · rw [if_pos hr]
      by_cases hc : isPySpace c
      · simp [hc, pyStripR]
      · simp only [hc, Bool.false_eq_true, if_false]
        rw [pyStripR_cons]
        simp [hc, pyStripR]
    · rw [if_neg hr]
      rw [pyStripR_cons, ih, if_neg hr]

/-- Left- and right-strip commute. -/
theorem pyStripL_pyStripR_comm (s : PyStr) :
    pyStripL (pyStripR s) = pyStripR (pyStripL s) := by
  induction s with
  | nil => rfl
  | cons c r ih =>
    by_cases hr : pyStripR r = []
    · have hall : ∀ x ∈ r, isPySpace x = true := (pyStripR_eq_nil_iff r).mp hr
      rw [pyStripR_cons, if_pos hr]
      by_cases hc : isPySpace c
      · have hLr : pyStripL r = [] := (pyStripL_eq_nil_iff r).mpr hall
        simp only [pyStripL, List.dropWhile_cons, hc, if_pos rfl]
        show List.dropWhile isPySpace [] = pyStripR (pyStripL r)
        rw [hLr]
        rfl
      · simp only [pyStripL, List.dropWhile_cons, hc]
        simp only [Bool.false_eq_true, if_false]
        rw [show List.dropWhile isPySpace [c] = [c] from by simp [List.dropWhile, hc]]
        rw [pyStripR_cons, hr, if_pos rfl, if_neg hc]
    · rw [pyStripR_cons, if_neg hr]
      by_cases hc : isPySpace c
      · simp only [pyStripL, List.dropWhile_cons, hc, if_pos rfl]
        exact ih
      · simp only [pyStripL, List.dropWhile_cons, hc]
        simp only [Bool.false_eq_true, if_false]
        rw [pyStripR_cons, if_neg hr]

/-- Python strip is idempotent. -/
theorem pyStrip_idem (s : PyStr) : pyStrip (pyStrip s) = pyStrip s := by
  unfold pyStrip
  rw [pyStripL_pyStripR_comm (pyStripL (pyStripR s)), pyStripL_idem,
      ← pyStripL_pyStripR_comm, pyStripR_idem]

/-! ## Document text extraction (src/core/pdf_processor.py and
src/core/document_processor.py)

The extraction libraries (pdfplumber, PyPDF2, PyMuPDF+Tesseract, python-docx,
win32com) touch the filesystem and external binaries; each library-facing
helper body is abstracted as an oracle returning either the accumulated text
it would produce or an exception.  The control flow around the oracles is
translated from the source. -/

/-- An opaque Python exception. -/
abbrev PyErr := Unit

/-- PDFProcessor._extract_with_pdfplumber: the try-body is the oracle; any
exception is caught and an empty string returned. -/
def extract_with_pdfplumber (oracle : PyStr → Except PyErr PyStr) (pdf_path : PyStr) : PyStr :=
  match oracle pdf_path with
  | .ok t => t
  | .error _ => []

/-- PDFProcessor._extract_with_pypdf2: same shape as the pdfplumber helper. -/
def extract_with_pypdf2 (oracle : PyStr → Except PyErr PyStr) (pdf_path : PyStr) : PyStr :=
  match oracle pdf_path with
  | .ok t => t
  | .error _ => []

/-- PDFProcessor.extract_text_from_pdf: pdfplumber first; if its text is
falsy or its stripped length is below 100, PyPDF2; if the final text is
falsy, an exception is raised (and re-raised by the outer handler). -/
def pdfproc_extract_text_from_pdf (o1 o2 : PyStr → Except PyErr PyStr)
    (pdf_path : PyStr) : Except PyErr PyStr :=
  if extract_with_pdfplumber o1 pdf_path = [] ∨
      (pyStrip (extract_with_pdfplumber o1 pdf_path)).length < 100 then
    (if extract_with_pypdf2 o2 pdf_path = [] then .error ()
     else .ok (extract_with_pypdf2 o2 pdf_path))
  else
    (if extract_with_pdfplumber o1 pdf_path = [] then .error ()
     else .ok (extract_with_pdfplumber o1 pdf_path))

/-- DocumentProcessor._extract_text_with_tesseract: the OCR pipeline through
the page loop is the oracle (accumulated page text or an exception); the
final step returns the stripped accumulation when non-blank. -/
def extract_text_with_tesseract (ocr : PyStr → Except PyErr PyStr) (pdf_path : PyStr) :
    Option PyStr :=
  match ocr pdf_path with
  | .error _ => none
  | .ok acc => if pyStrip acc ≠ [] then some (pyStrip acc) else none

/-- DocumentProcessor.extract_text_from_pdf: Tesseract OCR only. -/
def docproc_extract_text_from_pdf (ocr : PyStr → Except PyErr PyStr) (pdf_path : PyStr) :
    Option PyStr :=
  match extract_text_with_tesseract ocr pdf_path with
  | some ocr_text => if ocr_text ≠ [] then some ocr_text else none
  | none => none

/-- DocumentProcessor.extract_text_from_word: dispatch on the lowered
extension; each library body is an oracle; a blank accumulation, an import
failure or any exception yields None. -/
def extract_text_from_word (docx doc : PyStr → Except PyErr PyStr) (word_path : PyStr) :
    Option PyStr :=
  if (pyStr (".docx")).isSuffixOf (pyLower word_path) then
    match docx word_path with
    | .error _ => none
    | .ok t => if pyStrip t ≠ [] then some (pyStrip t) else none
  else if (pyStr (".doc")).isSuffixOf (pyLower word_path) then
    match doc word_path with
    | .error _ => none
    | .ok t => if pyStrip t ≠ [] then some (pyStrip t) else none
  else none

/-- DocumentProcessor.extract_text_from_document: extension dispatch with
None for unsupported types; the outer handler catches any exception. -/
def extract_text_from_document (ocr docx doc : PyStr → Except PyErr PyStr)
    (document_path : PyStr) : Option PyStr :=
  if (pyStr (".pdf")).isSuffixOf (pyLower document_path) then
    docproc_extract_text_from_pdf ocr document_path
  else if (pyStr (".docx")).isSuffixOf (pyLower document_path) ||
          (pyStr (".doc")).isSuffixOf (pyLower document_path) then
    extract_text_from_word docx doc document_path
  else none

/-- DocumentProcessor.is_document_file. -/
def is_document_file (filename : PyStr) : Bool :=
  (pyStr (".pdf")).isSuffixOf (pyLower filename) ||
  (pyStr (".docx")).isSuffixOf (pyLower filename) ||
  (pyStr (".doc")).isSuffixOf (pyLower filename)

/-- C4 counterexample: with pdfplumber producing the non-empty,
non-whitespace text "short text" (below the 100-character threshold), the
PDF extractor does not accept the first strategy's text but returns
PyPDF2's output instead — the claimed accept-first-non-blank rule fails. -/
theorem c4_counterexample :
    pdfproc_extract_text_from_pdf (fun _ => .ok (pyStr ("short text")))
        (fun _ => .ok (pyStr ("pypdf2 text"))) (pyStr ("f.pdf")) =
      .ok (pyStr ("pypdf2 text")) ∧
    pyStrip (pyStr ("short text")) ≠ [] ∧
    pyStr ("pypdf2 text") ≠ pyStr ("short text") := by
  refine ⟨rfl, by decide, by decide⟩

/-- C4 (amended): the repository has two PDF extractors and neither runs
the claimed three-stage chain.  DocumentProcessor.extract_text_from_pdf
attempts OCR only (its result is exactly the Tesseract helper's result).
PDFProcessor.extract_text_from_pdf attempts pdfplumber first and accepts
its text only when non-falsy and of stripped length at least 100; otherwise
it falls through to PyPDF2 (a strategy exception yields the empty string
and so advances); a falsy final text raises instead of degrading. -/
theorem c4_two_extractors_strategy_order (o1 o2 ocr : PyStr → Except PyErr PyStr) (p : PyStr) :
    docproc_extract_text_from_pdf ocr p = extract_text_with_tesseract ocr p ∧
    (∀ t1, o1 p = .ok t1 → t1 ≠ [] → 100 ≤ (pyStrip t1).length →
      pdfproc_extract_text_from_pdf o1 o2 p = .ok t1) ∧
    ((extract_with_pdfplumber o1 p = [] ∨ (pyStrip (extract_with_pdfplumber o1 p)).length < 100) →
      extract_with_pypdf2 o2 p ≠ [] →
      pdfproc_extract_text_from_pdf o1 o2 p = .ok (extract_with_pypdf2 o2 p)) ∧
    ((extract_with_pdfplumber o1 p = [] ∨ (pyStrip (extract_with_pdfplumber o1 p)).length < 100) →
      extract_with_pypdf2 o2 p = [] →
      pdfproc_extract_text_from_pdf o1 o2 p = .error ()) := by
  refine ⟨?_, ?_, ?_, ?_⟩
  · unfold docproc_extract_text_from_pdf extract_text_with_tesseract
    cases ocr p with
    | error e => rfl
    | ok acc =>
      by_cases h : pyStrip acc ≠ []
      · simp [h]
      · simp [h]
  · intro t1 h1 hne hlen
    unfold pdfproc_extract_text_from_pdf
    rw [show extract_with_pdfplumber o1 p = t1 from by unfold extract_with_pdfplumber; rw [h1]]
    rw [if_neg (by push_neg; exact ⟨hne, by omega⟩), if_neg hne]
  · intro hshort hne
    unfold pdfproc_extract_text_from_pdf
    rw [if_pos hshort, if_neg hne]
  · intro hshort hnil
    unfold pdfproc_extract_text_from_pdf
    rw [if_pos hshort, if_pos hnil]

/-- Witness for the amended C4 theorem: a pdfplumber text of 100 non-blank
characters is accepted; an erroring pdfplumber with non-empty PyPDF2 text
falls through; two empty strategies raise. -/
theorem c4_strategy_witness :
    pdfproc_extract_text_from_pdf
        (fun _ => .ok (List.replicate 100 'a')) (fun _ => .ok (pyStr ("ignored")))
        (pyStr ("f.pdf")) = .ok (List.replicate 100 'a') ∧
    pdfproc_extract_text_from_pdf
        (fun _ => .error ()) (fun _ => .ok (pyStr ("ocr free")))
        (pyStr ("f.pdf")) = .ok (pyStr ("ocr free")) ∧
    pdfproc_extract_text_from_pdf
        (fun _ => .error ()) (fun _ => .ok []) (pyStr ("f.pdf")) = .error () :=
  ⟨(c4_two_extractors_strategy_order (fun _ => .ok (List.replicate 100 'a'))
      (fun _ => .ok (pyStr ("ignored"))) (fun _ => .error ()) (pyStr ("f.pdf"))).2.1
      (List.replicate 100 'a') rfl (by decide) (by decide),
   (c4_two_extractors_strategy_order (fun _ => .error ())
      (fun _ => .ok (pyStr ("ocr free"))) (fun _ => .error ()) (pyStr ("f.pdf"))).2.2.1
      (Or.inl rfl) (by decide),
   (c4_two_extractors_strategy_order (fun _ => .error ())
      (fun _ => .ok []) (fun _ => .error ()) (pyStr ("f.pdf"))).2.2.2 (Or.inl rfl) rfl⟩

/-- C5: for every input path and any behavior of the extraction libraries,
the single-document extract operation returns either non-empty trimmed text
or the failure marker None (it is total in the embedding: every library
interaction is guarded by a handler), and an unsupported extension yields
None, not an exception. -/
theorem c5_extract_document_total_contract (ocr docx doc : PyStr → Except PyErr PyStr)
    (document_path : PyStr) :
    (extract_text_from_document ocr docx doc document_path = none ∨
      ∃ t, extract_text_from_document ocr docx doc document_path = some t ∧
        t ≠ [] ∧ pyStrip t = t) ∧
    (is_document_file document_path = false →
      extract_text_from_document ocr docx doc document_path = none) := by
  constructor
  · unfold extract_text_from_document
    by_cases hpdf : (pyStr (".pdf")).isSuffixOf (pyLower document_path)
    · rw [if_pos hpdf]
      unfold docproc_extract_text_from_pdf extract_text_with_tesseract
      cases ocr document_path with
      | error e => exact Or.inl rfl
      | ok acc =>
        dsimp only
        by_cases hs : pyStrip acc ≠ []
        · rw [if_pos hs]
          dsimp only
          rw [if_pos hs]
          exact Or.inr ⟨pyStrip acc, rfl, hs, pyStrip_idem acc⟩
        · rw [if_neg hs]
          exact Or.inl rfl
    · rw [if_neg hpdf]
      by_cases hword : (pyStr (".docx")).isSuffixOf (pyLower document_path) ||
          (pyStr (".doc")).isSuffixOf (pyLower document_path)
      · rw [if_pos hword]
        unfold extract_text_from_word
        by_cases hdocx : (pyStr (".docx")).isSuffixOf (pyLower document_path)
        · rw [if_pos hdocx]
          cases docx document_path with
          | error e => exact Or.inl rfl
          | ok t =>
            dsimp only
            by_cases hs : pyStrip t ≠ []
            · rw [if_pos hs]
              exact Or.inr ⟨pyStrip t, rfl, hs, pyStrip_idem t⟩
            · rw [if_neg hs]
              exact Or.inl rfl
        · rw [if_neg hdocx]
          by_cases hdoc : (pyStr (".doc")).isSuffixOf (pyLower document_path)
          · rw [if_pos hdoc]
            cases doc document_path with
            | error e => exact Or.inl rfl
            | ok t =>
              dsimp only
              by_cases hs : pyStrip t ≠ []
              · rw [if_pos hs]
                exact Or.inr ⟨pyStrip t, rfl, hs, pyStrip_idem t⟩
              · rw [if_neg hs]
                exact Or.inl rfl
          · rw [if_neg hdoc]
            exact Or.inl rfl
      · rw [if_neg hword]
        exact Or.inl rfl
  · intro hun
    unfold is_document_file at hun
    unfold extract_text_from_document
    rw [if_neg ?hpdf, if_neg ?hword]
    case hpdf =>
      intro h
      rw [h] at hun
      simp at hun
    case hword =>
      intro h
      rcases Bool.or_eq_true_iff.mp h with h1 | h1 <;> rw [h1] at hun <;> simp at hun

/-- Witness for the C5 contract: an unsupported extension yields the
failure marker, and a successful docx extraction yields non-empty trimmed
text. -/
theorem c5_extract_document_witness :
    extract_text_from_document (fun _ => .error ()) (fun _ => .ok (pyStr (" body\n")))
        (fun _ => .error ()) (pyStr ("notes.txt")) = none ∧
    (extract_text_from_document (fun _ => .error ()) (fun _ => .ok (pyStr (" body\n")))
        (fun _ => .error ()) (pyStr ("a.docx")) = none ∨
      ∃ t, extract_text_from_document (fun _ => .error ()) (fun _ => .ok (pyStr (" body\n")))
        (fun _ => .error ()) (pyStr ("a.docx")) = some t ∧ t ≠ [] ∧ pyStrip t = t) :=
  ⟨(c5_extract_document_total_contract (fun _ => .error ()) (fun _ => .ok (pyStr (" body\n")))
      (fun _ => .error ()) (pyStr ("notes.txt"))).2 (by decide),
   (c5_extract_document_total_contract (fun _ => .error ()) (fun _ => .ok (pyStr (" body\n")))
      (fun _ => .error ()) (pyStr ("a.docx"))).1⟩

/-! ## Folder aggregation (DocumentProcessor.extract_all_text_from_folder) -/

/-- DocumentProcessor.get_all_documents_in_folder: the os.walk enumeration
is an oracle (full paths, in discovery order); supported files are kept and
a traversal exception yields the empty list. -/
def get_all_documents_in_folder (walk : Except PyErr (List PyStr)) : List PyStr :=
  match walk with
  | .ok files => files.filter is_document_file
  | .error _ => []

/-- The aggregate result of one folder scan. -/
structure FolderResult where
  successful_texts : List (PyStr × PyStr)
  failed_documents : List PyStr
  stats_total : Nat
  stats_successful : Nat
  stats_failed : Nat
deriving DecidableEq

/-- One step of the per-document loop: a truthy extracted text goes into the
successful dict keyed by full path, anything else appends the basename to
the failed list. -/
def folder_step (extract : PyStr → Option PyStr)
    (acc : List (PyStr × PyStr) × List PyStr) (doc_path : PyStr) :
    List (PyStr × PyStr) × List PyStr :=
  match extract doc_path with
  | some t => if t ≠ [] then (alSet doc_path t acc.1, acc.2)
              else (acc.1, acc.2 ++ [pyBasename doc_path])
  | none => (acc.1, acc.2 ++ [pyBasename doc_path])

/-- DocumentProcessor.extract_all_text_from_folder: early well-formed empty
result for zero discovered documents, otherwise the per-document loop with
stats computed from the two accumulators and the file count. -/
def extract_all_text_from_folder (walk : Except PyErr (List PyStr))
    (extract : PyStr → Option PyStr) : FolderResult :=
  match get_all_documents_in_folder walk with
  | [] => ⟨[], [], 0, 0, 0⟩
  | f :: fs =>
    ⟨((f :: fs).foldl (folder_step extract) ([], [])).1,
     ((f :: fs).foldl (folder_step extract) ([], [])).2,
     (f :: fs).length,
     ((f :: fs).foldl (folder_step extract) ([], [])).1.length,
     ((f :: fs).foldl (folder_step extract) ([], [])).2.length⟩

/-- Writing a fresh key appends one entry. -/
theorem alSet_length_new (k v : PyStr) (l : List (PyStr × PyStr))
    (h : k ∉ l.map Prod.fst) : (alSet k v l).length = l.length + 1 := by
  induction l with
  | nil => rfl
  | cons p r ih =>
    obtain ⟨a, b⟩ := p
    simp only [List.map_cons, List.mem_cons] at h
    push_neg at h
    simp only [alSet]
    rw [if_neg (fun hh => h.1 hh.symm)]
    simp [ih h.2]

/-- Writing a fresh key appends it to the key sequence. -/
theorem alSet_keys_new (k v : PyStr) (l : List (PyStr × PyStr))
    (h : k ∉ l.map Prod.fst) : (alSet k v l).map Prod.fst = l.map Prod.fst ++ [k] := by
  induction l with
  | nil => rfl
  | cons p r ih =>
    obtain ⟨a, b⟩ := p
    simp only [List.map_cons, List.mem_cons] at h
    push_neg at h
    simp only [alSet]
    rw [if_neg (fun hh => h.1 hh.symm)]
    simp [ih h.2]

/-- Loop invariant of the folder scan: with fresh distinct paths, each
iteration grows exactly one of the two accumulators by one entry. -/
theorem folder_loop_counts (extract : PyStr → Option PyStr) :
    ∀ (files : List PyStr) (acc : List (PyStr × PyStr) × List PyStr),
      files.Nodup → (∀ f ∈ files, f ∉ acc.1.map Prod.fst) →
      (files.foldl (folder_step extract) acc).1.length +
        (files.foldl (folder_step extract) acc).2.length =
        acc.1.length + acc.2.length + files.length := by
  intro files
  induction files with
  | nil => intro acc _ _; simp
  | cons f rest ih =>
    intro acc hnd hfresh
    rw [List.foldl_cons]
    have hnd' : rest.Nodup := (List.nodup_cons.mp hnd).2
    have hf : f ∉ acc.1.map Prod.fst := hfresh f (by simp)
    have hstep : (folder_step extract acc f).1.length + (folder_step extract acc f).2.length =
        acc.1.length + acc.2.length + 1 := by
      unfold folder_step
      cases extract f with
      | none => simp; omega
      | some t =>
        dsimp only
        by_cases ht : t ≠ []
        · rw [if_pos ht]
          simp [alSet_length_new f t acc.1 hf]
          omega
        · rw [if_neg ht]
          simp
          omega
    have hfresh' : ∀ g ∈ rest, g ∉ (folder_step extract acc f).1.map Prod.fst := by
      intro g hg
      have hgacc : g ∉ acc.1.map Prod.fst := hfresh g (by simp [hg])
      have hgf : g ≠ f := by
        intro hh
        exact (List.nodup_cons.mp hnd).1 (hh ▸ hg)
      unfold folder_step
      cases extract f with
      | none => exact hgacc
      | some t =>
        dsimp only
        by_cases ht : t ≠ []
        · rw [if_pos ht]
          dsimp only
          rw [alSet_keys_new f t acc.1 hf]
          simp [hgacc, hgf]
        · rw [if_neg ht]
          exact hgacc
    rw [ih (folder_step extract acc f) hnd' hfresh', hstep]
    simp [List.length_cons]
    omega

/-- C6: for every folder enumeration (including the empty and the
traversal-error case) and every extractor behavior, the scan statistics
satisfy total = successful + failed, successful = |successfulTexts| and
failed = |failedPaths|.  The filesystem guarantees the enumerated paths are
distinct, which is the stated hypothesis. -/
theorem c6_scan_stats_invariant (walk : Except PyErr (List PyStr))
    (extract : PyStr → Option PyStr)
    (hnodup : ∀ files, walk = Except.ok files → files.Nodup) :
    (extract_all_text_from_folder walk extract).stats_total =
      (extract_all_text_from_folder walk extract).stats_successful +
        (extract_all_text_from_folder walk extract).stats_failed ∧
    (extract_all_text_from_folder walk extract).stats_successful =
      (extract_all_text_from_folder walk extract).successful_texts.length ∧
    (extract_all_text_from_folder walk extract).stats_failed =
      (extract_all_text_from_folder walk extract).failed_documents.length := by
  cases hw : walk with
  | error e => exact ⟨rfl, rfl, rfl⟩
  | ok files =>
    have hfn : (files.filter is_document_file).Nodup := (hnodup files hw).filter _
    unfold extract_all_text_from_folder get_all_documents_in_folder
    dsimp only
    cases hfl : files.filter is_document_file with
    | nil => exact ⟨rfl, rfl, rfl⟩
    | cons f fs =>
      refine ⟨?_, rfl, rfl⟩
      show (f :: fs).length = _ + _
      rw [folder_loop_counts extract (f :: fs) ([], []) (hfl ▸ hfn) (by simp)]
      simp

/-- Witness for the C6 invariant: three discovered files, one extractable. -/
theorem c6_scan_stats_witness :
    (extract_all_text_from_folder
        (Except.ok [pyStr ("a/x.pdf"), pyStr ("b/y.docx"), pyStr ("c/n.txt")])
        (fun p => if p = pyStr ("a/x.pdf") then some (pyStr ("T")) else none)).stats_total =
      (extract_all_text_from_folder
        (Except.ok [pyStr ("a/x.pdf"), pyStr ("b/y.docx"), pyStr ("c/n.txt")])
        (fun p => if p = pyStr ("a/x.pdf") then some (pyStr ("T")) else none)).stats_successful +
        (extract_all_text_from_folder
        (Except.ok [pyStr ("a/x.pdf"), pyStr ("b/y.docx"), pyStr ("c/n.txt")])
        (fun p => if p = pyStr ("a/x.pdf") then some (pyStr ("T")) else none)).stats_failed :=
  (c6_scan_stats_invariant
    (Except.ok [pyStr ("a/x.pdf"), pyStr ("b/y.docx"), pyStr ("c/n.txt")])
    (fun p => if p = pyStr ("a/x.pdf") then some (pyStr ("T")) else none)
    (fun files h => by
      cases h
      decide)).1

/-! ## Combining document texts (DocumentProcessor.combine_document_texts) -/

/-- Python str.join over a list of strings. -/
def joinSep (sep : PyStr) : List PyStr → PyStr
  | [] => []
  | [x] => x
  | x :: y :: rest => x ++ sep ++ joinSep sep (y :: rest)

/-- DocumentProcessor.combine_document_texts: empty mapping gives the empty
string; otherwise per-entry blank-line-framed header-plus-text chunks are
concatenated in insertion order and the result is stripped. -/
def combine_document_texts (document_texts : List (PyStr × PyStr)) : PyStr :=
  if document_texts.isEmpty then []
  else
    pyStrip (document_texts.foldl
      (fun acc p => acc ++ pyStr ("\n\n=== DOCUMENT: ") ++ pyBasename p.1 ++
        pyStr (" ===\n\n") ++ p.2 ++ pyStr ("\n\n")) [])

/-- The header-plus-text block of one entry (header line, blank line, text). -/
def doc_block (p : PyStr × PyStr) : PyStr :=
  pyStr ("=== DOCUMENT: ") ++ pyBasename p.1 ++ pyStr (" ===\n\n") ++ p.2

/-- Right-strip over an append. -/
theorem pyStripR_append (a b : PyStr) :
    pyStripR (a ++ b) = if pyStripR b = [] then pyStripR a else a ++ pyStripR b := by
  unfold pyStripR
  rw [List.reverse_append, List.dropWhile_append]
  by_cases hb : b.reverse.dropWhile isPySpace = []
  · rw [if_pos (by simp [hb])]
    rw [if_pos (by simp [hb])]
  · rw [if_neg (by simpa using hb)]
    rw [if_neg (by simpa using hb)]
    simp

/-- Left-strip over an append. -/
theorem pyStripL_append (a b : PyStr) :
    pyStripL (a ++ b) = if pyStripL a = [] then pyStripL b else pyStripL a ++ b := by
  unfold pyStripL
  rw [List.dropWhile_append]
  by_cases ha : a.dropWhile isPySpace = []
  · rw [if_pos (by simp [ha]), if_pos ha]
  · rw [if_neg (by simpa using ha), if_neg ha]

/-- The join of a nonempty list extends its first element. -/
theorem joinSep_cons_head (sep x : PyStr) (rest : List PyStr) :
    ∃ u, joinSep sep (x :: rest) = x ++ u := by
  cases rest with
  | nil => exact ⟨[], by simp [joinSep]⟩
  | cons y r => exact ⟨sep ++ joinSep sep (y :: r), by simp [joinSep]⟩

/-- The folder-combine loop in closed form. -/
theorem combine_foldl_closed (entries : List (PyStr × PyStr)) (a : PyStr) :
    entries.foldl
      (fun acc p => acc ++ pyStr ("\n\n=== DOCUMENT: ") ++ pyBasename p.1 ++
        pyStr (" ===\n\n") ++ p.2 ++ pyStr ("\n\n")) a =
    a ++ (entries.map (fun p => pyStr ("\n\n") ++ doc_block p ++ pyStr ("\n\n"))).flatten := by
  induction entries generalizing a with
  | nil => simp
  | cons p rest ih =>
    rw [List.foldl_cons, ih]
    obtain ⟨q, t⟩ := p
    simp [doc_block, pyStr]

/-- Blank-line-framed blocks flatten to one framed four-newline join. -/
theorem flatten_framed_blocks (x : PyStr × PyStr) (rest : List (PyStr × PyStr)) :
    ((x :: rest).map (fun p => pyStr ("\n\n") ++ doc_block p ++ pyStr ("\n\n"))).flatten =
      pyStr ("\n\n") ++ joinSep (pyStr ("\n\n\n\n")) ((x :: rest).map doc_block) ++
        pyStr ("\n\n") := by
  induction rest generalizing x with
  | nil => simp [joinSep]
  | cons y r ih =>
    rw [show ((x :: y :: r).map (fun p => pyStr ("\n\n") ++ doc_block p ++ pyStr ("\n\n"))).flatten =
        (pyStr ("\n\n") ++ doc_block x ++ pyStr ("\n\n")) ++
          ((y :: r).map (fun p => pyStr ("\n\n") ++ doc_block p ++ pyStr ("\n\n"))).flatten from by
      simp]
    rw [ih y]
    rw [show (x :: y :: r).map doc_block = doc_block x :: (y :: r).map doc_block from by simp]
    rw [show joinSep (pyStr ("\n\n\n\n")) (doc_block x :: (y :: r).map doc_block) =
        doc_block x ++ pyStr ("\n\n\n\n") ++ joinSep (pyStr ("\n\n\n\n")) ((y :: r).map doc_block)
        from by
      cases hm : (y :: r).map doc_block with
      | nil => simp at hm
      | cons b bs => rw [joinSep]]
    have h4 : pyStr ("\n\n") ++ pyStr ("\n\n") = pyStr ("\n\n\n\n") := by decide
    rw [← h4]
    simp

/-- Left-strip keeps a string headed by a non-space character. -/
theorem pyStripL_cons_nonspace (c : Char) (z : PyStr) (h : isPySpace c = false) :
    pyStripL (c :: z) = c :: z := by
  unfold pyStripL
  rw [List.dropWhile_cons]
  simp [h]

/-- C7 counterexample: for a one-entry mapping the output places a blank
line between the header and the text, so the header is not immediately
followed by the entry's text. -/
theorem c7_counterexample :
    combine_document_texts [(pyStr ("a/doc1.pdf"), pyStr ("X"))] =
      pyStr ("=== DOCUMENT: doc1.pdf ===\n\nX") ∧
    pyContains (combine_document_texts [(pyStr ("a/doc1.pdf"), pyStr ("X"))])
      (pyStr ("=== DOCUMENT: doc1.pdf ===X")) = false := by
  exact ⟨by decide, by decide⟩

/-- C7 (amended): combine of the empty mapping is the empty string; for a
nonempty mapping the output is, in insertion order, one block per entry —
the header line "=== DOCUMENT: basename ===", a blank line, then the
entry's text — with consecutive blocks separated by "\n\n\n\n" (the blank
lines the loop frames each block with), and the final trailing frame
right-stripped away (which also trims trailing whitespace of the last
text). -/
theorem c7_combine_structure :
    combine_document_texts [] = [] ∧
    ∀ entries : List (PyStr × PyStr), entries ≠ [] →
      combine_document_texts entries =
        pyStripR (joinSep (pyStr ("\n\n\n\n")) (entries.map doc_block)) := by
  refine ⟨rfl, ?_⟩
  intro entries hne
  cases entries with
  | nil => exact absurd rfl hne
  | cons x rest =>
    unfold combine_document_texts
    rw [if_neg (by simp)]
    rw [combine_foldl_closed, List.nil_append, flatten_framed_blocks]
    have hdb : doc_block x =
        '=' :: (pyStr ("== DOCUMENT: ") ++ pyBasename x.1 ++ pyStr (" ===\n\n") ++ x.2) := by
      unfold doc_block
      rw [show pyStr ("=== DOCUMENT: ") = '=' :: pyStr ("== DOCUMENT: ") from rfl]
      simp
    obtain ⟨u, hu⟩ :=
      joinSep_cons_head (pyStr ("\n\n\n\n")) (doc_block x) (rest.map doc_block)
    have hmid : joinSep (pyStr ("\n\n\n\n")) ((x :: rest).map doc_block) =
        '=' :: ((pyStr ("== DOCUMENT: ") ++ pyBasename x.1 ++ pyStr (" ===\n\n") ++ x.2) ++ u) := by
      rw [List.map_cons, hu, hdb]
      simp
    have hRne : pyStripR (joinSep (pyStr ("\n\n\n\n")) ((x :: rest).map doc_block)) ≠ [] := by
      rw [hmid]
      intro hnil
      have := (pyStripR_eq_nil_iff _).mp hnil '=' (by simp)
      exact absurd this (by decide)
    set m := joinSep (pyStr ("\n\n\n\n")) ((x :: rest).map doc_block) with hm
    unfold pyStrip
    rw [pyStripR_append (pyStr ("\n\n") ++ m) (pyStr ("\n\n"))]
    rw [if_pos (by decide)]
    rw [pyStripR_append (pyStr ("\n\n")) m]
    rw [if_neg hRne]
    rw [pyStripL_append]
    rw [if_pos (by decide)]
    rw [hmid, pyStripR_cons]
    by_cases hw : pyStripR ((pyStr ("== DOCUMENT: ") ++ pyBasename x.1 ++
        pyStr (" ===\n\n") ++ x.2) ++ u) = []
    · rw [if_pos (by simpa using hw)]
      rw [if_neg (by decide)]
      exact pyStripL_cons_nonspace '=' [] (by decide)
    · rw [if_neg (by simpa using hw)]
      exact pyStripL_cons_nonspace '=' _ (by decide)

/-- Witness for the amended C7 structure theorem on a two-entry mapping. -/
theorem c7_combine_witness :
    combine_document_texts
        [(pyStr ("a/doc1.pdf"), pyStr ("X")), (pyStr ("b/doc2.pdf"), pyStr ("Y"))] =
      pyStripR (joinSep (pyStr ("\n\n\n\n"))
        ([(pyStr ("a/doc1.pdf"), pyStr ("X")), (pyStr ("b/doc2.pdf"), pyStr ("Y"))].map doc_block)) :=
  c7_combine_structure.2
    [(pyStr ("a/doc1.pdf"), pyStr ("X")), (pyStr ("b/doc2.pdf"), pyStr ("Y"))] (by decide)

/-! ## Text region filter (src/core/text_filter.py)

TextFilter stores lowered search terms at construction; the functions below
take the raw constructor arguments and lower at the comparison, which is the
same composition. -/

/-- A word matches when it contains (substring) any lowered search term. -/
def isTermWord (search_terms : List PyStr) (word : PyStr) : Bool :=
  search_terms.any (fun term => pyContains (pyLower word) (pyLower term))

/-- TextFilter._find_search_term_positions, via a running index. -/
def positionsFrom (search_terms : List PyStr) : Nat → List PyStr → List Nat
  | _, [] => []
  | i, w :: ws =>
    if isTermWord search_terms w then i :: positionsFrom search_terms (i + 1) ws
    else positionsFrom search_terms (i + 1) ws

/-- TextFilter._find_search_term_positions. -/
def find_search_term_positions (search_terms : List PyStr) (words : List PyStr) : List Nat :=
  positionsFrom search_terms 0 words

/-- TextFilter._create_windows: one window per match position (the windows
set is produced in position order here and deduplicated by the sort below;
max(0, pos - half) is Nat subtraction). -/
def create_windows (half : Nat) (positions : List Nat) (total_words : Nat) : List (Nat × Nat) :=
  positions.map (fun pos => (pos - half, min total_words (pos + half)))

/-- Lexicographic strict order on windows (Python tuple comparison). -/
def winLt (w v : Nat × Nat) : Prop := w.1 < v.1 ∨ (w.1 = v.1 ∧ w.2 < v.2)

/-- Lexicographic order on windows. -/
def winLe (w v : Nat × Nat) : Prop := w.1 < v.1 ∨ (w.1 = v.1 ∧ w.2 ≤ v.2)

instance (w v : Nat × Nat) : Decidable (winLt w v) := by unfold winLt; infer_instance

instance (w v : Nat × Nat) : Decidable (winLe w v) := by unfold winLe; infer_instance

/-- Sorted insertion without duplicates. -/
def insWin (w : Nat × Nat) : List (Nat × Nat) → List (Nat × Nat)
  | [] => [w]
  | v :: vs =>
    if w = v then v :: vs
    else if winLt w v then w :: v :: vs
    else v :: insWin w vs

/-- Model of Python sorted(set(...)): the sorted duplicate-free list with
the same membership. -/
def sortedSet (l : List (Nat × Nat)) : List (Nat × Nat) := l.foldr insWin []

/-- The running merge of TextFilter._merge_overlapping_windows: current
window, then one pass over the sorted rest. -/
def mergeAux : Nat × Nat → List (Nat × Nat) → List (Nat × Nat)
  | (cs, ce), [] => [(cs, ce)]
  | (cs, ce), (s, e) :: rest =>
    if s ≤ ce + 100 then mergeAux (cs, max ce e) rest
    else (cs, ce) :: mergeAux (s, e) rest

/-- TextFilter._merge_overlapping_windows. -/
def merge_overlapping_windows : List (Nat × Nat) → List (Nat × Nat)
  | [] => []
  | w :: ws => mergeAux w ws

/-- TextFilter._extract_sections: word slices re-joined by single spaces. -/
def extract_sections (words : List PyStr) (windows : List (Nat × Nat)) : List PyStr :=
  windows.map (fun w => joinSep (pyStr (" ")) ((words.drop w.1).take (w.2 - w.1)))

/-- The body of TextFilter.filter_text after the degenerate-input checks,
as a function of the word list. -/
def filter_words (search_terms : List PyStr) (window_size : Nat) (words : List PyStr) : PyStr :=
  if find_search_term_positions search_terms words = [] then []
  else
    joinSep (pyStr ("\n\n"))
      (extract_sections words
        (merge_overlapping_windows (sortedSet
          (create_windows (window_size / 2)
            (find_search_term_positions search_terms words) words.length))))

/-- TextFilter.filter_text. -/
def filter_text (search_terms : List PyStr) (window_size : Nat) (combined_text : PyStr) : PyStr :=
  if combined_text = [] then combined_text
  else if search_terms = [] then combined_text
  else filter_words search_terms window_size (pySplit combined_text)

/-! ## Position lemmas -/

/-- Unfolding equation of the position scan over a head word. -/
theorem positionsFrom_cons (terms : List PyStr) (i : Nat) (w : PyStr) (ws : List PyStr) :
    positionsFrom terms i (w :: ws) =
      if isTermWord terms w then i :: positionsFrom terms (i + 1) ws
      else positionsFrom terms (i + 1) ws := rfl

/-- Match positions are at least the running index. -/
theorem positionsFrom_ge (terms : List PyStr) :
    ∀ (ws : List PyStr) (i : Nat), ∀ p ∈ positionsFrom terms i ws, i ≤ p := by
  intro ws
  induction ws with
  | nil => intro i p hp; simp [positionsFrom] at hp
  | cons w rest ih =>
    intro i p hp
    unfold positionsFrom at hp
    by_cases hw : isTermWord terms w
    · rw [if_pos hw] at hp
      rcases List.mem_cons.mp hp with rfl | hp'
      · exact le_refl p
      · exact le_trans (Nat.le_succ i) (ih (i + 1) p hp')
    · rw [if_neg hw] at hp
      exact le_trans (Nat.le_succ i) (ih (i + 1) p hp)

/-- Match positions are below the running index plus the word count. -/
theorem positionsFrom_lt (terms : List PyStr) :
    ∀ (ws : List PyStr) (i : Nat), ∀ p ∈ positionsFrom terms i ws, p < i + ws.length := by
  intro ws
  induction ws with
  | nil => intro i p hp; simp [positionsFrom] at hp
  | cons w rest ih =>
    intro i p hp
    unfold positionsFrom at hp
    by_cases hw : isTermWord terms w
    · rw [if_pos hw] at hp
      rcases List.mem_cons.mp hp with rfl | hp'
      · simp
      · have := ih (i + 1) p hp'
        simp only [List.length_cons]
        omega
    · rw [if_neg hw] at hp
      have := ih (i + 1) p hp
      simp only [List.length_cons]
      omega

/-- Match positions are strictly increasing. -/
theorem positionsFrom_sorted (terms : List PyStr) :
    ∀ (ws : List PyStr) (i : Nat), List.Chain' (· < ·) (positionsFrom terms i ws) := by
  intro ws
  induction ws with
  | nil => intro i; simp [positionsFrom]
  | cons w rest ih =>
    intro i
    unfold positionsFrom
    by_cases hw : isTermWord terms w
    · rw [if_pos hw]
      refine List.chain'_cons'.mpr ⟨?_, ih (i + 1)⟩
      intro y hy
      have hmem : y ∈ positionsFrom terms (i + 1) rest := by
        cases hl : positionsFrom terms (i + 1) rest with
        | nil => rw [hl] at hy; simp at hy
        | cons a l => rw [hl] at hy; simp at hy; simp [hl, hy]
      have := positionsFrom_ge terms rest (i + 1) y hmem
      omega
    · rw [if_neg hw]
      exact ih (i + 1)

/-- Match positions over an append split at the boundary. -/
theorem positionsFrom_append (terms : List PyStr) :
    ∀ (xs ys : List PyStr) (i : Nat),
      positionsFrom terms i (xs ++ ys) =
        positionsFrom terms i xs ++ positionsFrom terms (i + xs.length) ys := by
  intro xs
  induction xs with
  | nil => intro ys i; simp [positionsFrom]
  | cons x rest ih =>
    intro ys i
    rw [show (x :: rest) ++ ys = x :: (rest ++ ys) from rfl]
    rw [positionsFrom_cons, positionsFrom_cons, ih ys (i + 1)]
    simp only [List.length_cons]
    rw [show i + 1 + rest.length = i + (rest.length + 1) from by omega]
    by_cases hx : isTermWord terms x
    · rw [if_pos hx, if_pos hx]
      simp
    · rw [if_neg hx, if_neg hx]

/-- Shifting the running index shifts the positions. -/
theorem positionsFrom_shift (terms : List PyStr) :
    ∀ (ws : List PyStr) (k : Nat),
      positionsFrom terms k ws = (positionsFrom terms 0 ws).map (· + k) := by
  intro ws
  induction ws with
  | nil => intro k; simp [positionsFrom]
  | cons w rest ih =>
    intro k
    unfold positionsFrom
    by_cases hw : isTermWord terms w
    · rw [if_pos hw, if_pos hw, ih (k + 1), ih 1]
      simp only [List.map_cons, List.map_map, Nat.zero_add]
      refine congrArg (k :: ·) ?_
      apply List.map_congr_left
      intro a _
      simp
      try omega
    · rw [if_neg hw, if_neg hw, ih (k + 1), ih 1]
      simp only [List.map_map]
      apply List.map_congr_left
      intro a _
      simp
      try omega

/-- Match positions of a prefix are the positions below the cut. -/
theorem positionsFrom_take (terms : List PyStr) :
    ∀ (ws : List PyStr) (i m : Nat),
      positionsFrom terms i (ws.take m) =
        (positionsFrom terms i ws).filter (fun p => p < i + m) := by
  intro ws
  induction ws with
  | nil => intro i m; simp [positionsFrom]
  | cons w rest ih =>
    intro i m
    cases m with
    | zero =>
      simp only [List.take_zero]
      rw [show positionsFrom terms i ([] : List PyStr) = [] from rfl]
      symm
      rw [List.filter_eq_nil_iff]
      intro p hp
      have := positionsFrom_ge terms (w :: rest) i p hp
      simp
      omega
    | succ m' =>
      simp only [List.take_succ_cons]
      unfold positionsFrom
      by_cases hw : isTermWord terms w
      · rw [if_pos hw, if_pos hw, ih (i + 1) m']
        rw [List.filter_cons_of_pos (by simp)]
        refine congrArg (i :: ·) (List.filter_congr ?_)
        intro p _
        simp only [decide_eq_decide]
        omega
      · rw [if_neg hw, if_neg hw, ih (i + 1) m']
        refine List.filter_congr ?_
        intro p _
        simp only [decide_eq_decide]
        omega

/-- Adding then subtracting a constant is the identity on Nat lists. -/
theorem map_add_sub (a : Nat) : ∀ l : List Nat, (l.map (· + a)).map (fun p => p - a) = l := by
  intro l
  induction l with
  | nil => rfl
  | cons x r ih => simp [ih]

/-- The positions of the dropped suffix, scanned from the cut index, are the
original positions at or past the cut. -/
theorem positionsFrom_drop_part (terms : List PyStr) (ws : List PyStr) (m : Nat)
    (hm : m ≤ ws.length) :
    positionsFrom terms m (ws.drop m) =
      (positionsFrom terms 0 ws).filter (fun p => m ≤ p) := by
  have hsplit := positionsFrom_append terms (ws.take m) (ws.drop m) 0
  rw [List.take_append_drop] at hsplit
  have hlen : (ws.take m).length = m := by
    rw [List.length_take]
    omega
  rw [hlen] at hsplit
  rw [hsplit, List.filter_append]
  have h1 : (positionsFrom terms 0 (ws.take m)).filter (fun p => m ≤ p) = [] := by
    rw [List.filter_eq_nil_iff]
    intro p hp
    have := positionsFrom_lt terms (ws.take m) 0 p hp
    rw [hlen] at this
    simp
    omega
  have h2 : (positionsFrom terms (0 + m) (ws.drop m)).filter (fun p => m ≤ p) =
      positionsFrom terms (0 + m) (ws.drop m) := by
    rw [List.filter_eq_self]
    intro p hp
    have := positionsFrom_ge terms (ws.drop m) (0 + m) p hp
    simp
    omega
  rw [h1, h2, List.nil_append]
  rw [show (0 + m) = m from by omega]

/-- The positions of a word slice are the original positions inside the
window, shifted to slice coordinates. -/
theorem positions_slice (terms : List PyStr) (ws : List PyStr) (a e : Nat)
    (ha : a ≤ ws.length) :
    positionsFrom terms 0 ((ws.drop a).take (e - a)) =
      ((positionsFrom terms 0 ws).filter (fun p => a ≤ p ∧ p < e)).map (fun p => p - a) := by
  rw [positionsFrom_take]
  have h0 : positionsFrom terms 0 (ws.drop a) =
      (positionsFrom terms a (ws.drop a)).map (fun p => p - a) := by
    rw [positionsFrom_shift terms (ws.drop a) a, map_add_sub]
  rw [h0, positionsFrom_drop_part terms ws a ha, List.filter_map, List.filter_filter]
  refine congrArg (List.map fun p => p - a) (List.filter_congr ?_)
  intro x _
  show (decide (x - a < 0 + (e - a)) && decide (a ≤ x)) = decide (a ≤ x ∧ x < e)
  rw [← Bool.decide_and]
  have : (x - a < 0 + (e - a) ∧ a ≤ x) ↔ (a ≤ x ∧ x < e) := by omega
  exact decide_eq_decide.mpr this

/-! ## Split and join lemmas -/

/-- Unfolding equation of the split scan at the end of input. -/
theorem pySplitAux_nil (acc : PyStr) :
    pySplitAux [] acc = if acc.isEmpty then [] else [acc.reverse] := rfl

/-- Unfolding equation of the split scan over a head character. -/
theorem pySplitAux_cons (d : Char) (cs acc : PyStr) :
    pySplitAux (d :: cs) acc =
      if isPySpace d then
        (if acc.isEmpty then pySplitAux cs [] else acc.reverse :: pySplitAux cs [])
      else pySplitAux cs (d :: acc) := rfl

/-- Tokens produced by the split are non-empty and whitespace-free
(auxiliary form with the accumulator invariant). -/
theorem pySplitAux_tokens_good :
    ∀ (s : PyStr) (acc : PyStr), (∀ c ∈ acc, isPySpace c = false) →
      ∀ w ∈ pySplitAux s acc, w ≠ [] ∧ ∀ c ∈ w, isPySpace c = false := by
  intro s
  induction s with
  | nil =>
    intro acc hacc w hw
    unfold pySplitAux at hw
    by_cases he : acc.isEmpty
    · rw [if_pos he] at hw
      simp at hw
    · rw [if_neg he] at hw
      rcases List.mem_singleton.mp hw with rfl
      refine ⟨by simpa using he, ?_⟩
      intro c hc
      exact hacc c (by simpa using hc)
  | cons d cs ih =>
    intro acc hacc w hw
    unfold pySplitAux at hw
    by_cases hd : isPySpace d
    · rw [if_pos hd] at hw
      by_cases he : acc.isEmpty
      · rw [if_pos he] at hw
        exact ih [] (by simp) w hw
      · rw [if_neg he] at hw
        rcases List.mem_cons.mp hw with rfl | hw'
        · refine ⟨by simpa using he, ?_⟩
          intro c hc
          exact hacc c (by simpa using hc)
        · exact ih [] (by simp) w hw'
    · rw [if_neg hd] at hw
      refine ih (d :: acc) ?_ w hw
      intro c hc
      rcases List.mem_cons.mp hc with rfl | hc'
      · simpa using hd
      · exact hacc c hc'

/-- Tokens produced by the split are non-empty and whitespace-free. -/
theorem pySplit_tokens_good (s : PyStr) :
    ∀ w ∈ pySplit s, w ≠ [] ∧ ∀ c ∈ w, isPySpace c = false :=
  pySplitAux_tokens_good s [] (by simp)

/-- A whitespace character cleanly splits the scan (auxiliary form). -/
theorem pySplitAux_append_space (c : Char) (hc : isPySpace c = true) (b : PyStr) :
    ∀ (a : PyStr) (acc : PyStr),
      pySplitAux (a ++ c :: b) acc = pySplitAux a acc ++ pySplitAux b [] := by
  intro a
  induction a with
  | nil =>
    intro acc
    show pySplitAux (c :: b) acc = _
    rw [pySplitAux_cons, if_pos hc, pySplitAux_nil]
    by_cases he : acc.isEmpty
    · rw [if_pos he, if_pos he]
      simp
    · rw [if_neg he, if_neg he]
      simp
  | cons d a' ih =>
    intro acc
    show pySplitAux (d :: (a' ++ c :: b)) acc = pySplitAux (d :: a') acc ++ pySplitAux b []
    rw [pySplitAux_cons, pySplitAux_cons d a' acc]
    by_cases hd : isPySpace d
    · rw [if_pos hd, if_pos hd]
      by_cases he : acc.isEmpty
      · rw [if_pos he, if_pos he, ih []]
      · rw [if_neg he, if_neg he, ih []]
        simp
    · rw [if_neg hd, if_neg hd, ih (d :: acc)]

/-- A whitespace character cleanly splits the string. -/
theorem pySplit_append_space (c : Char) (hc : isPySpace c = true) (a b : PyStr) :
    pySplit (a ++ c :: b) = pySplit a ++ pySplit b :=
  pySplitAux_append_space c hc b a []

/-- A leading whitespace character does not affect the split. -/
theorem pySplit_cons_space (c : Char) (hc : isPySpace c = true) (z : PyStr) :
    pySplit (c :: z) = pySplit z := by
  unfold pySplit
  rw [pySplitAux_cons, if_pos hc]
  simp

/-- A non-empty whitespace-free string splits to itself (auxiliary form). -/
theorem pySplitAux_single :
    ∀ (w : PyStr) (acc : PyStr), (∀ c ∈ w, isPySpace c = false) →
      acc.reverse ++ w ≠ [] → pySplitAux w acc = [acc.reverse ++ w] := by
  intro w
  induction w with
  | nil =>
    intro acc _ hne
    rw [pySplitAux_nil]
    rw [if_neg (by simpa using fun h => hne (by simp [h]))]
    simp
  | cons d w' ih =>
    intro acc hgood hne
    rw [pySplitAux_cons]
    rw [if_neg (by simpa using hgood d (by simp))]
    rw [ih (d :: acc) (fun c hc => hgood c (by simp [hc])) (by simp)]
    simp

/-- A non-empty whitespace-free string splits to itself. -/
theorem pySplit_single (w : PyStr) (hne : w ≠ []) (hgood : ∀ c ∈ w, isPySpace c = false) :
    pySplit w = [w] := by
  have := pySplitAux_single w [] hgood (by simpa using hne)
  simpa using this

/-- Splitting a space-join of good tokens recovers the tokens. -/
theorem pySplit_joinSep_space :
    ∀ ws : List PyStr, (∀ w ∈ ws, w ≠ [] ∧ ∀ c ∈ w, isPySpace c = false) →
      pySplit (joinSep (pyStr (" ")) ws) = ws := by
  intro ws
  induction ws with
  | nil => intro _; rfl
  | cons x rest ih =>
    intro hgood
    cases rest with
    | nil =>
      show pySplit (joinSep (pyStr (" ")) [x]) = [x]
      rw [show joinSep (pyStr (" ")) [x] = x from rfl]
      exact pySplit_single x (hgood x (by simp)).1 (hgood x (by simp)).2
    | cons y r =>
      rw [show joinSep (pyStr (" ")) (x :: y :: r) =
          x ++ ' ' :: joinSep (pyStr (" ")) (y :: r) from by
        rw [joinSep]
        simp [pyStr]]
      rw [pySplit_append_space ' ' (by decide) x (joinSep (pyStr (" ")) (y :: r))]
      rw [ih (fun w hw => hgood w (by simp [List.mem_cons.mp hw]))]
      rw [pySplit_single x (hgood x (by simp)).1 (hgood x (by simp)).2]
      rfl

/-- Splitting a blank-line join concatenates the splits of the parts. -/
theorem pySplit_joinSep_nl :
    ∀ sections : List PyStr,
      pySplit (joinSep (pyStr ("\n\n")) sections) = (sections.map pySplit).flatten := by
  intro sections
  induction sections with
  | nil => rfl
  | cons x rest ih =>
    cases rest with
    | nil => simp [joinSep]
    | cons y r =>
      rw [show joinSep (pyStr ("\n\n")) (x :: y :: r) =
          x ++ '\n' :: ('\n' :: joinSep (pyStr ("\n\n")) (y :: r)) from by
        rw [joinSep]
        simp [pyStr]]
      rw [pySplit_append_space '\n' (by decide) x ('\n' :: joinSep (pyStr ("\n\n")) (y :: r))]
      rw [pySplit_cons_space '\n' (by decide) (joinSep (pyStr ("\n\n")) (y :: r))]
      rw [ih]
      simp

/-! ## Sorted-set and merge lemmas -/

/-- Adjacent-duplicate removal on a sorted list (the shape Python's
sorted(set(...)) has for already-sorted input). -/
def dedupAdj : List (Nat × Nat) → List (Nat × Nat)
  | [] => []
  | [w] => [w]
  | w :: v :: r => if w = v then dedupAdj (v :: r) else w :: dedupAdj (v :: r)

/-- Unfolding equation for two-element heads. -/
theorem dedupAdj_cons₂ (w v : Nat × Nat) (r : List (Nat × Nat)) :
    dedupAdj (w :: v :: r) = if w = v then dedupAdj (v :: r) else w :: dedupAdj (v :: r) := rfl

/-- Dedup keeps the head element. -/
theorem dedupAdj_head : ∀ (r : List (Nat × Nat)) (y : Nat × Nat),
    ∃ t, dedupAdj (y :: r) = y :: t := by
  intro r
  induction r with
  | nil => intro y; exact ⟨[], rfl⟩
  | cons v r' ih =>
    intro y
    rw [dedupAdj_cons₂]
    by_cases hyv : y = v
    · rw [if_pos hyv]
      obtain ⟨t, ht⟩ := ih v
      exact ⟨t, by rw [ht, hyv]⟩
    · rw [if_neg hyv]
      exact ⟨dedupAdj (v :: r'), rfl⟩

/-- Order plus distinctness gives the strict order. -/
theorem winLe_ne_lt (x y : Nat × Nat) (hle : winLe x y) (hne : x ≠ y) : winLt x y := by
  obtain ⟨a, b⟩ := x
  obtain ⟨c, d⟩ := y
  rcases hle with h | ⟨h1, h2⟩
  · exact Or.inl h
  · subst h1
    have hbd : b ≠ d := by
      intro h
      exact hne (by rw [h])
    exact Or.inr ⟨rfl, by omega⟩

/-- On sorted input, the sorted-set construction is adjacent dedup. -/
theorem sortedSet_of_sorted : ∀ l : List (Nat × Nat),
    List.Chain' winLe l → sortedSet l = dedupAdj l := by
  intro l
  induction l with
  | nil => intro _; rfl
  | cons x rest ih =>
    intro hchain
    rw [show sortedSet (x :: rest) = insWin x (sortedSet rest) from rfl]
    rw [ih (List.chain'_cons'.mp hchain).2]
    cases rest with
    | nil => rfl
    | cons y r =>
      obtain ⟨t, ht⟩ := dedupAdj_head r y
      rw [ht]
      have hxy : winLe x y := (List.chain'_cons'.mp hchain).1 y (by simp)
      by_cases he : x = y
      · rw [show insWin x (y :: t) = y :: t from by unfold insWin; rw [if_pos he]]
        rw [dedupAdj_cons₂, if_pos he, ht]
      · rw [show insWin x (y :: t) = x :: y :: t from by
          unfold insWin
          rw [if_neg he, if_pos (winLe_ne_lt x y hxy he)]]
        rw [dedupAdj_cons₂, if_neg he, ht]

/-- Unfolding equation of the merge over a head window. -/
theorem mergeAux_cons (cs ce s e : Nat) (rest : List (Nat × Nat)) :
    mergeAux (cs, ce) ((s, e) :: rest) =
      if s ≤ ce + 100 then mergeAux (cs, max ce e) rest
      else (cs, ce) :: mergeAux (s, e) rest := rfl

/-- An adjacent duplicate window merges with no effect. -/
theorem mergeAux_dup (cs ce : Nat) (x : Nat × Nat) (l' : List (Nat × Nat))
    (hx : x.1 ≤ x.2) :
    mergeAux (cs, ce) (x :: x :: l') = mergeAux (cs, ce) (x :: l') := by
  obtain ⟨s, e⟩ := x
  simp only at hx
  by_cases h1 : s ≤ ce + 100
  · rw [mergeAux_cons, if_pos h1, mergeAux_cons,
        if_pos (show s ≤ max ce e + 100 from by omega),
        show max (max ce e) e = max ce e from by omega, mergeAux_cons, if_pos h1]
  · rw [mergeAux_cons, if_neg h1, mergeAux_cons,
        if_pos (show s ≤ e + 100 from by omega),
        show max e e = e from by omega, mergeAux_cons, if_neg h1]

/-- The merge is insensitive to adjacent duplicates. -/
theorem mergeAux_dedupAdj : ∀ (l : List (Nat × Nat)), (∀ w ∈ l, w.1 ≤ w.2) →
    ∀ (cs ce : Nat), mergeAux (cs, ce) (dedupAdj l) = mergeAux (cs, ce) l := by
  intro l
  induction l with
  | nil => intro _ cs ce; rfl
  | cons x rest ih =>
    intro hwf cs ce
    cases rest with
    | nil => rfl
    | cons x' r =>
      rw [dedupAdj_cons₂]
      by_cases he : x = x'
      · rw [if_pos he]
        rw [ih (fun w hw => hwf w (by simp [hw])) cs ce]
        subst he
        exact (mergeAux_dup cs ce x r (hwf x (by simp))).symm
      · rw [if_neg he]
        obtain ⟨s, e⟩ := x
        rw [mergeAux_cons, mergeAux_cons]
        by_cases h1 : s ≤ ce + 100
        · rw [if_pos h1, if_pos h1]
          exact ih (fun w hw => hwf w (by simp [hw])) cs (max ce e)
        · rw [if_neg h1, if_neg h1]
          exact congrArg ((cs, ce) :: ·) (ih (fun w hw => hwf w (by simp [hw])) s e)

/-- The merge after sorted-set equals the merge of the raw sorted list. -/
theorem merge_sortedSet_eq (l : List (Nat × Nat)) (hsort : List.Chain' winLe l)
    (hwf : ∀ w ∈ l, w.1 ≤ w.2) :
    merge_overlapping_windows (sortedSet l) = merge_overlapping_windows l := by
  rw [sortedSet_of_sorted l hsort]
  cases l with
  | nil => rfl
  | cons x rest =>
    obtain ⟨t, ht⟩ := dedupAdj_head rest x
    rw [ht]
    show mergeAux x t = mergeAux x rest
    obtain ⟨cs, ce⟩ := x
    have hwfx : cs ≤ ce := by simpa using hwf (cs, ce) (by simp)
    have habs : ∀ l', mergeAux (cs, ce) ((cs, ce) :: l') = mergeAux (cs, ce) l' := by
      intro l'
      rw [mergeAux_cons, if_pos (by omega), show max ce ce = ce from by omega]
    calc mergeAux (cs, ce) t
        = mergeAux (cs, ce) ((cs, ce) :: t) := (habs t).symm
      _ = mergeAux (cs, ce) (dedupAdj ((cs, ce) :: rest)) := by rw [ht]
      _ = mergeAux (cs, ce) ((cs, ce) :: rest) := mergeAux_dedupAdj ((cs, ce) :: rest) hwf cs ce
      _ = mergeAux (cs, ce) rest := habs rest

/-! ## Run decomposition of the window merge -/

/-- The merge of the per-position windows, tracked on the positions
themselves: a run accumulates while each next window reaches within the
100-word tolerance of the running end. -/
def runsAuxW (h n a : Nat) (cur : List Nat) (prev : Nat) : List Nat → List (Nat × List Nat)
  | [] => [(a, cur)]
  | q :: qs =>
    if q - h ≤ min n (prev + h) + 100 then runsAuxW h n a (cur ++ [q]) q qs
    else (a, cur) :: runsAuxW h n (q - h) [q] q qs

/-- Run decomposition of a position list. -/
def runsW (h n : Nat) : List Nat → List (Nat × List Nat)
  | [] => []
  | p :: ps => runsAuxW h n (p - h) [p] p ps

/-- Unfolding equation of the run scan. -/
theorem runsAuxW_cons (h n a : Nat) (cur : List Nat) (prev q : Nat) (qs : List Nat) :
    runsAuxW h n a cur prev (q :: qs) =
      if q - h ≤ min n (prev + h) + 100 then runsAuxW h n a (cur ++ [q]) q qs
      else (a, cur) :: runsAuxW h n (q - h) [q] q qs := rfl

/-- The head default of a left-extended append. -/
theorem headD_append_left (cur : List Nat) (l : List Nat) (hne : cur ≠ []) :
    (cur ++ l).headD 0 = cur.headD 0 := by
  cases cur with
  | nil => exact absurd rfl hne
  | cons c cc => rfl

/-- In a strictly increasing list the head bounds every member. -/
theorem chain_lt_headD_le_mem : ∀ (l : List Nat), List.Chain' (· < ·) l →
    ∀ x ∈ l, l.headD 0 ≤ x := by
  intro l
  induction l with
  | nil => intro _ x hx; simp at hx
  | cons a rest ih =>
    intro hchain x hx
    rcases List.mem_cons.mp hx with rfl | hx'
    · simp
    · have hrest := (List.chain'_cons'.mp hchain).2
      have hhead := (List.chain'_cons'.mp hchain).1
      have h1 := ih hrest x hx'
      show a ≤ x
      cases rest with
      | nil => simp at hx'
      | cons b r =>
        have hab : a < b := hhead b rfl
        have : (b :: r).headD 0 = b := rfl
        rw [this] at h1
        omega

/-- In a strictly increasing list the last element bounds every member. -/
theorem chain_lt_mem_le_getLastD : ∀ (l : List Nat), List.Chain' (· < ·) l →
    ∀ x ∈ l, x ≤ l.getLastD 0 := by
  intro l
  induction l with
  | nil => intro _ x hx; simp at hx
  | cons a rest ih =>
    intro hchain x hx
    cases rest with
    | nil =>
      rcases List.mem_cons.mp hx with rfl | hx'
      · rfl
      · simp at hx'
    | cons b r =>
      have hrest := (List.chain'_cons'.mp hchain).2
      have hab : a < b := (List.chain'_cons'.mp hchain).1 b rfl
      rw [show (a :: b :: r).getLastD 0 = (b :: r).getLastD 0 from rfl]
      rcases List.mem_cons.mp hx with rfl | hx'
      · have hb := chain_lt_headD_le_mem (b :: r) hrest b (by simp)
        have := ih hrest b (by simp)
        omega
      · exact ih hrest x hx'

/-- The running merge of the per-position windows is the run decomposition,
with each output window spanning from its run's anchored start to the
clipped end of its last position. -/
theorem mergeAux_eq_runs (h n : Nat) : ∀ (qs : List Nat) (a prev : Nat) (cur : List Nat),
    cur.getLastD 0 = prev →
    List.Chain' (· < ·) (prev :: qs) →
    mergeAux (a, min n (prev + h)) (qs.map (fun p => (p - h, min n (p + h)))) =
      (runsAuxW h n a cur prev qs).map (fun g => (g.1, min n (g.2.getLastD 0 + h))) := by
  intro qs
  induction qs with
  | nil =>
    intro a prev cur hlast _
    show [(a, min n (prev + h))] = [(a, min n (cur.getLastD 0 + h))]
    rw [hlast]
  | cons q qs' ih =>
    intro a prev cur hlast hchain
    have hpq : prev < q := (List.chain'_cons.mp hchain).1
    have htail : List.Chain' (· < ·) (q :: qs') := (List.chain'_cons.mp hchain).2
    rw [List.map_cons, mergeAux_cons, runsAuxW_cons]
    by_cases hcond : q - h ≤ min n (prev + h) + 100
    · rw [if_pos hcond, if_pos hcond]
      rw [show max (min n (prev + h)) (min n (q + h)) = min n (q + h) from by omega]
      exact ih a q (cur ++ [q]) (List.getLastD_concat 0 q cur) htail
    · rw [if_neg hcond, if_neg hcond]
      rw [List.map_cons]
      rw [ih (q - h) q [q] rfl htail, hlast]

/-- Complete characterization of the run scan: the runs partition the
positions, each run is strictly increasing with consecutive gaps at most
2*h+100, each run's anchor is its head minus h, successive runs are
separated beyond the merge tolerance, and every anchor is at least the
initial anchor. -/
theorem runsAuxW_spec (h n : Nat) : ∀ (qs : List Nat) (a : Nat) (cur : List Nat) (prev : Nat),
    cur ≠ [] →
    cur.getLastD 0 = prev →
    a = cur.headD 0 - h →
    List.Chain' (· < ·) (cur ++ qs) →
    (∀ x ∈ cur ++ qs, x < n) →
    List.Chain' (fun p q => q ≤ p + 2 * h + 100) cur →
    (((runsAuxW h n a cur prev qs).map Prod.snd).flatten = cur ++ qs) ∧
    (∀ g ∈ runsAuxW h n a cur prev qs,
      g.2 ≠ [] ∧ List.Chain' (· < ·) g.2 ∧
      List.Chain' (fun p q => q ≤ p + 2 * h + 100) g.2 ∧
      g.1 = g.2.headD 0 - h ∧ (∀ x ∈ g.2, x < n)) ∧
    List.Pairwise (fun g g' => min n (g.2.getLastD 0 + h) + 100 < g'.1)
      (runsAuxW h n a cur prev qs) ∧
    (∀ g ∈ runsAuxW h n a cur prev qs, a ≤ g.1) := by
  intro qs
  induction qs with
  | nil =>
    intro a cur prev hne hlast ha hchain hbound hbnd
    refine ⟨by simp [runsAuxW], ?_, ?_, ?_⟩
    · intro g hg
      rcases List.mem_singleton.mp hg with rfl
      exact ⟨hne, by simpa using hchain, hbnd, ha, fun x hx => hbound x (by simpa using hx)⟩
    · exact List.pairwise_singleton _ _
    · intro g hg
      rcases List.mem_singleton.mp hg with rfl
      exact le_refl _
  | cons q qs' ih =>
    intro a cur prev hne hlast ha hchain hbound hbnd
    have hsplit := List.chain'_append.mp hchain
    have hcurlast : cur.getLast? = some prev := by
      cases cur with
      | nil => exact absurd rfl hne
      | cons c cc =>
        rw [← hlast]
        rw [List.getLastD_eq_getLast?, List.getLast?_cons]
        cases hgl : (cc).getLast? with
        | none => rfl
        | some y => rfl
    have hpq : prev < q := by
      have := hsplit.2.2 prev hcurlast q rfl
      exact this
    rw [runsAuxW_cons]
    by_cases hcond : q - h ≤ min n (prev + h) + 100
    · rw [if_pos hcond]
      have hassoc : (cur ++ [q]) ++ qs' = cur ++ q :: qs' := by
        rw [List.append_assoc]; rfl
      have hchain' : List.Chain' (· < ·) ((cur ++ [q]) ++ qs') := by
        rw [hassoc]; exact hchain
      have hbound' : ∀ x ∈ (cur ++ [q]) ++ qs', x < n := by
        rw [hassoc]; exact hbound
      have hbnd' : List.Chain' (fun p q => q ≤ p + 2 * h + 100) (cur ++ [q]) := by
        apply List.chain'_append.mpr
        refine ⟨hbnd, List.chain'_singleton q, ?_⟩
        intro x hx y hy
        rw [hcurlast] at hx
        have hx' : prev = x := by simpa using hx
        have hy' : q = y := by simpa using hy
        subst hx'
        subst hy'
        omega
      have hres := ih a (cur ++ [q]) q (by simp) (List.getLastD_concat 0 q cur)
        (by rw [headD_append_left cur [q] hne]; exact ha) hchain' hbound' hbnd'
      refine ⟨?_, hres.2.1, hres.2.2.1, hres.2.2.2⟩
      rw [hres.1, hassoc]
    · rw [if_neg hcond]
      have htailchain : List.Chain' (· < ·) ([q] ++ qs') := hsplit.2.1
      have hcurchain : List.Chain' (· < ·) cur := hsplit.1
      have hres := ih (q - h) [q] q (by simp) rfl rfl htailchain
        (fun x hx => hbound x (List.mem_append_right cur hx)) (List.chain'_singleton q)
      have hstart : ∀ g ∈ runsAuxW h n (q - h) [q] q qs', q - h ≤ g.1 := hres.2.2.2
      have hagd : a ≤ q - h := by
        have hhm : cur.headD 0 ≤ prev := by
          have := chain_lt_mem_le_getLastD cur hcurchain (cur.headD 0) ?_
          · rw [hlast] at this; exact this
          · cases cur with
            | nil => exact absurd rfl hne
            | cons c cc => simp
        omega
      constructor
      · show (cur :: (runsAuxW h n (q - h) [q] q qs').map Prod.snd).flatten = cur ++ q :: qs'
        rw [List.flatten_cons, hres.1]
        rfl
      refine ⟨?_, ?_, ?_⟩
      · intro g hg
        rcases List.mem_cons.mp hg with rfl | hg'
        · exact ⟨hne, hcurchain, hbnd, ha,
            fun x hx => hbound x (List.mem_append_left _ hx)⟩
        · exact hres.2.1 g hg'
      · apply List.pairwise_cons.mpr
        refine ⟨?_, hres.2.2.1⟩
        intro g' hg'
        have h1 : q - h ≤ g'.1 := hstart g' hg'
        show min n (cur.getLastD 0 + h) + 100 < g'.1
        rw [hlast]
        omega
      · intro g hg
        rcases List.mem_cons.mp hg with rfl | hg'
        · exact le_refl _
        · exact le_trans hagd (hstart g hg')

/-- The default head of a non-empty list is a member. -/
theorem headD_mem_of_ne_nil (l : List Nat) (hne : l ≠ []) : l.headD 0 ∈ l := by
  cases l with
  | nil => exact absurd rfl hne
  | cons a r => simp

/-- The default last of a non-empty list is a member. -/
theorem getLastD_mem_of_ne_nil : ∀ (l : List Nat), l ≠ [] → ∀ d, l.getLastD d ∈ l := by
  intro l
  induction l with
  | nil => intro h; exact absurd rfl h
  | cons a r ih =>
    intro _ d
    cases r with
    | nil => simp [List.getLastD]
    | cons b s =>
      rw [List.getLastD_cons]
      exact List.mem_cons_of_mem a (ih (by simp) a)

/-- For strictly increasing in-range positions, the sorted-set merge of the
created windows is exactly the mapped run decomposition. -/
theorem merge_windows_eq_runs (h n : Nat) (P : List Nat)
    (hchain : List.Chain' (· < ·) P) (hlt : ∀ p ∈ P, p < n) :
    merge_overlapping_windows (sortedSet (create_windows h P n)) =
      (runsW h n P).map (fun g => (g.1, min n (g.2.getLastD 0 + h))) := by
  have hwf : ∀ w ∈ create_windows h P n, w.1 ≤ w.2 := by
    intro w hw
    simp only [create_windows, List.mem_map] at hw
    obtain ⟨p, hp, rfl⟩ := hw
    have := hlt p hp
    simp only
    omega
  have hsort : List.Chain' winLe (create_windows h P n) := by
    unfold create_windows
    rw [List.chain'_map]
    apply List.Chain'.imp ?_ hchain
    intro a b hab
    unfold winLe
    simp only
    omega
  rw [merge_sortedSet_eq _ hsort hwf]
  cases P with
  | nil => rfl
  | cons p ps =>
    show mergeAux (p - h, min n (p + h))
        (ps.map (fun q => (q - h, min n (q + h)))) = _
    exact mergeAux_eq_runs h n ps (p - h) p [p] rfl hchain

/-- The merged window list over strictly increasing in-range positions is
wellformed and pairwise separated by more than the 100-word tolerance. -/
theorem merged_windows_invariants (h n : Nat) (P : List Nat)
    (hchain : List.Chain' (· < ·) P) (hlt : ∀ p ∈ P, p < n) :
    (∀ w ∈ merge_overlapping_windows (sortedSet (create_windows h P n)), w.1 ≤ w.2) ∧
    List.Pairwise (fun w w' => w.2 + 100 < w'.1)
      (merge_overlapping_windows (sortedSet (create_windows h P n))) := by
  rw [merge_windows_eq_runs h n P hchain hlt]
  cases P with
  | nil => exact ⟨by simp [runsW], by simp [runsW]⟩
  | cons p ps =>
    have hspec := runsAuxW_spec h n ps (p - h) [p] p (by simp) rfl rfl
      hchain hlt (List.chain'_singleton p)
    constructor
    · intro w hw
      rw [show runsW h n (p :: ps) = runsAuxW h n (p - h) [p] p ps from rfl] at hw
      simp only [List.mem_map] at hw
      obtain ⟨g, hg, rfl⟩ := hw
      obtain ⟨hne, hgchain, _, hga, hglt⟩ := hspec.2.1 g hg
      have hh : g.2.headD 0 ∈ g.2 := headD_mem_of_ne_nil g.2 hne
      have hl : g.2.getLastD 0 ∈ g.2 := getLastD_mem_of_ne_nil g.2 hne 0
      have h1 := chain_lt_mem_le_getLastD g.2 hgchain (g.2.headD 0) hh
      have h2 := hglt (g.2.getLastD 0) hl
      simp only
      rw [hga]
      omega
    · rw [show runsW h n (p :: ps) = runsAuxW h n (p - h) [p] p ps from rfl]
      rw [List.pairwise_map]
      exact hspec.2.2.1

/-- C8: for every text, non-empty search terms and window size, each
per-match window is (max(0, p - windowSize/2), min(wordCount, p +
windowSize/2)); the merged window list is wellformed, sorted by start, and
every pair of merged windows is separated by a gap of strictly more than
100 words (so in particular they are pairwise non-overlapping). -/
theorem c8_window_merge_invariants (search_terms : List PyStr) (window_size : Nat) (t : PyStr)
    (hterms : search_terms ≠ []) :
    create_windows (window_size / 2)
        (find_search_term_positions search_terms (pySplit t)) (pySplit t).length =
      (find_search_term_positions search_terms (pySplit t)).map
        (fun p => (p - window_size / 2, min (pySplit t).length (p + window_size / 2))) ∧
    (∀ w ∈ merge_overlapping_windows (sortedSet (create_windows (window_size / 2)
        (find_search_term_positions search_terms (pySplit t)) (pySplit t).length)),
      w.1 ≤ w.2) ∧
    List.Pairwise (fun w w' => w.2 + 100 < w'.1)
      (merge_overlapping_windows (sortedSet (create_windows (window_size / 2)
        (find_search_term_positions search_terms (pySplit t)) (pySplit t).length))) ∧
    List.Pairwise (fun w w' => w.1 < w'.1)
      (merge_overlapping_windows (sortedSet (create_windows (window_size / 2)
        (find_search_term_positions search_terms (pySplit t)) (pySplit t).length))) := by
  have hchain : List.Chain' (· < ·)
      (find_search_term_positions search_terms (pySplit t)) :=
    positionsFrom_sorted search_terms (pySplit t) 0
  have hlt : ∀ p ∈ find_search_term_positions search_terms (pySplit t),
      p < (pySplit t).length := by
    intro p hp
    have := positionsFrom_lt search_terms (pySplit t) 0 p hp
    omega
  have hinv := merged_windows_invariants (window_size / 2) (pySplit t).length
    (find_search_term_positions search_terms (pySplit t)) hchain hlt
  refine ⟨rfl, hinv.1, hinv.2, ?_⟩
  apply List.Pairwise.imp_of_mem ?_ hinv.2
  intro w w' hw _ hgap
  have := hinv.1 w hw
  omega

/-- Witness for C8 on a concrete text with two matches. -/
theorem c8_window_merge_witness :
    ([pyStr ("x")] : List PyStr) ≠ [] ∧
    List.Pairwise (fun w w' => w.2 + 100 < w'.1)
      (merge_overlapping_windows (sortedSet (create_windows (4 / 2)
        (find_search_term_positions [pyStr ("x")] (pySplit (pyStr ("x a b x"))))
        (pySplit (pyStr ("x a b x"))).length))) :=
  ⟨by decide,
   (c8_window_merge_invariants [pyStr ("x")] 4 (pyStr ("x a b x")) (by decide)).2.2.1⟩

/-! ## Density and the two-pass fixed point -/

/-- When every consecutive position gap is within the merge tolerance, the
run scan produces a single run holding all positions. -/
theorem runsAuxW_single (h n : Nat) : ∀ (qs : List Nat) (a prev : Nat) (cur : List Nat),
    cur.getLastD 0 = prev →
    List.Chain' (fun p q => q ≤ p + 2 * h + 100) (prev :: qs) →
    (∀ x ∈ qs, x < n) →
    runsAuxW h n a cur prev qs = [(a, cur ++ qs)] := by
  intro qs
  induction qs with
  | nil => intro a prev cur _ _ _; simp [runsAuxW]
  | cons q qs' ih =>
    intro a prev cur hlast hchain hbound
    rw [runsAuxW_cons]
    have hgap : q ≤ prev + 2 * h + 100 := (List.chain'_cons.mp hchain).1
    have hq : q < n := hbound q (by simp)
    rw [if_pos (by omega)]
    rw [ih a q (cur ++ [q]) (List.getLastD_concat 0 q cur) (List.chain'_cons.mp hchain).2
      (fun x hx => hbound x (by simp [hx]))]
    rw [List.append_assoc]
    rfl

/-- The optional last element of a non-empty list is its default last. -/
theorem getLast?_eq_getLastD_of_ne_nil (l : List Nat) (hne : l ≠ []) :
    l.getLast? = some (l.getLastD 0) := by
  have hs : l.getLast?.isSome := List.getLast?_isSome.mpr hne
  obtain ⟨y, hy⟩ := Option.isSome_iff_exists.mp hs
  rw [hy, List.getLastD_eq_getLast?, hy]
  rfl

/-- The optional head of a non-empty list is its default head. -/
theorem head?_eq_headD_of_ne_nil (l : List Nat) (hne : l ≠ []) :
    l.head? = some (l.headD 0) := by
  cases l with
  | nil => exact absurd rfl hne
  | cons a r => rfl

/-- The default last of a non-empty list ignores the default. -/
theorem getLastD_irrel (l : List Nat) (hne : l ≠ []) (d d' : Nat) :
    l.getLastD d = l.getLastD d' := by
  cases l with
  | nil => exact absurd rfl hne
  | cons x r => rw [List.getLastD_cons, List.getLastD_cons]

/-- The default last commutes with a constant shift. -/
theorem getLastD_map_add (k : Nat) : ∀ (l : List Nat) (d : Nat),
    (l.map (· + k)).getLastD (d + k) = l.getLastD d + k := by
  intro l
  induction l with
  | nil => intro d; rfl
  | cons x r ih =>
    intro d
    rw [List.map_cons, List.getLastD_cons, List.getLastD_cons]
    exact ih x

/-- The default last commutes with a constant truncated subtraction. -/
theorem getLastD_map_sub (k : Nat) : ∀ (l : List Nat) (d : Nat),
    (l.map (· - k)).getLastD (d - k) = l.getLastD d - k := by
  intro l
  induction l with
  | nil => intro d; rfl
  | cons x r ih =>
    intro d
    rw [List.map_cons, List.getLastD_cons, List.getLastD_cons]
    exact ih x

/-- The default last of an append is the default last of a non-empty right
part. -/
theorem getLastD_append_gen : ∀ (a b : List Nat) (d : Nat), b ≠ [] →
    (a ++ b).getLastD d = b.getLastD d := by
  intro a
  induction a with
  | nil => intro b d _; rfl
  | cons x a' ih =>
    intro b d hb
    rw [List.cons_append, List.getLastD_cons, ih b x hb]
    cases b with
    | nil => exact absurd rfl hb
    | cons y b' => rw [List.getLastD_cons, List.getLastD_cons]

/-- The default head commutes with a map on a non-empty list. -/
theorem headD_map_of_ne_nil (f : Nat → Nat) (l : List Nat) (hne : l ≠ []) :
    (l.map f).headD 0 = f (l.headD 0) := by
  cases l with
  | nil => exact absurd rfl hne
  | cons a r => rfl

/-- Packaged run-decomposition facts for a full position list. -/
theorem runsW_props (h n : Nat) (P : List Nat) (hne : P ≠ [])
    (hchain : List.Chain' (· < ·) P) (hlt : ∀ p ∈ P, p < n) :
    ((runsW h n P).map Prod.snd).flatten = P ∧
    (∀ g ∈ runsW h n P, g.2 ≠ [] ∧ List.Chain' (· < ·) g.2 ∧
      List.Chain' (fun p q => q ≤ p + 2 * h + 100) g.2 ∧
      g.1 = g.2.headD 0 - h ∧ (∀ x ∈ g.2, x < n)) ∧
    List.Pairwise (fun g g' => min n (g.2.getLastD 0 + h) + 100 < g'.1) (runsW h n P) := by
  cases P with
  | nil => exact absurd rfl hne
  | cons p ps =>
    have hspec := runsAuxW_spec h n ps (p - h) [p] p (by simp) rfl rfl hchain hlt
      (List.chain'_singleton p)
    exact ⟨hspec.1, hspec.2.1, hspec.2.2.1⟩

/-- Filtering the full position list to one run's window interval recovers
exactly that run (the runs are separated beyond the interval radii). -/
theorem runs_filter_eq (h n : Nat) (hh : 1 ≤ h) :
    ∀ (RS : List (Nat × List Nat)),
    (∀ g ∈ RS, g.2 ≠ [] ∧ List.Chain' (· < ·) g.2 ∧
      g.1 = g.2.headD 0 - h ∧ (∀ x ∈ g.2, x < n)) →
    List.Pairwise (fun g g' => min n (g.2.getLastD 0 + h) + 100 < g'.1) RS →
    ∀ g ∈ RS, ((RS.map Prod.snd).flatten).filter
      (fun p => g.1 ≤ p ∧ p < min n (g.2.getLastD 0 + h)) = g.2 := by
  intro RS
  induction RS with
  | nil => intro _ _ g hg; simp at hg
  | cons g0 rs ih =>
    intro hprops hpw g hg
    rw [List.map_cons, List.flatten_cons, List.filter_append]
    rcases List.mem_cons.mp hg with rfl | hg'
    · have hp0 := hprops g (by simp)
      have hlastlt : g.2.getLastD 0 < n :=
        hp0.2.2.2 _ (getLastD_mem_of_ne_nil g.2 hp0.1 0)
      have hleft : g.2.filter
          (fun p => g.1 ≤ p ∧ p < min n (g.2.getLastD 0 + h)) = g.2 := by
        rw [List.filter_eq_self]
        intro x hx
        have h1 := chain_lt_headD_le_mem g.2 hp0.2.1 x hx
        have h2 := chain_lt_mem_le_getLastD g.2 hp0.2.1 x hx
        have h3 := hp0.2.2.1
        simp only [decide_eq_true_eq]
        omega
      have hright : ((rs.map Prod.snd).flatten).filter
          (fun p => g.1 ≤ p ∧ p < min n (g.2.getLastD 0 + h)) = [] := by
        rw [List.filter_eq_nil_iff]
        intro p hp
        obtain ⟨l, hl, hpl⟩ := List.mem_flatten.mp hp
        obtain ⟨g', hg', rfl⟩ := List.mem_map.mp hl
        have hsep := (List.pairwise_cons.mp hpw).1 g' hg'
        have hp' := hprops g' (by simp [hg'])
        have hhead := chain_lt_headD_le_mem g'.2 hp'.2.1 p hpl
        have hga : g'.1 = g'.2.headD 0 - h := hp'.2.2.1
        simp only [decide_eq_true_eq]
        omega
      rw [hleft, hright, List.append_nil]
    · have hp0 := hprops g0 (by simp)
      have hsep := (List.pairwise_cons.mp hpw).1 g hg'
      have hlastlt : g0.2.getLastD 0 < n :=
        hp0.2.2.2 _ (getLastD_mem_of_ne_nil g0.2 hp0.1 0)
      have hleft : g0.2.filter
          (fun p => g.1 ≤ p ∧ p < min n (g.2.getLastD 0 + h)) = [] := by
        rw [List.filter_eq_nil_iff]
        intro x hx
        have h2 := chain_lt_mem_le_getLastD g0.2 hp0.2.1 x hx
        simp only [decide_eq_true_eq]
        omega
      rw [hleft, List.nil_append]
      exact ih (fun g'' hg'' => hprops g'' (by simp [hg'']))
        (List.pairwise_cons.mp hpw).2 g hg'

/-- Splitting a filtered output (positions present) yields exactly the
concatenated word slices of the merged windows. -/
theorem pySplit_filter_words (terms : List PyStr) (wsz : Nat) (W : List PyStr)
    (hgood : ∀ w ∈ W, w ≠ [] ∧ ∀ c ∈ w, isPySpace c = false)
    (hP : find_search_term_positions terms W ≠ []) :
    pySplit (filter_words terms wsz W) =
      ((merge_overlapping_windows (sortedSet (create_windows (wsz / 2)
        (find_search_term_positions terms W) W.length))).map
        (fun w => (W.drop w.1).take (w.2 - w.1))).flatten := by
  unfold filter_words
  rw [if_neg hP, pySplit_joinSep_nl]
  unfold extract_sections
  rw [List.map_map]
  congr 1
  apply List.map_congr_left
  intro w _
  show pySplit (joinSep (pyStr (" ")) ((W.drop w.1).take (w.2 - w.1))) = _
  apply pySplit_joinSep_space
  intro x hx
  exact hgood x (List.mem_of_mem_drop (List.mem_of_mem_take hx))

/-- Concatenating word blocks whose term positions are each dense (start
within h of the block head, gaps at most 2*h+100, end within h of the block
end) yields a word list with dense term positions overall. -/
theorem dense_concat (terms : List PyStr) (h : Nat) :
    ∀ (ss : List (List PyStr)),
    (∀ s ∈ ss,
      positionsFrom terms 0 s ≠ [] ∧
      (positionsFrom terms 0 s).headD 0 ≤ h ∧
      List.Chain' (fun p q => q ≤ p + 2 * h + 100) (positionsFrom terms 0 s) ∧
      s.length ≤ (positionsFrom terms 0 s).getLastD 0 + h) →
    ss ≠ [] →
    positionsFrom terms 0 ss.flatten ≠ [] ∧
    (positionsFrom terms 0 ss.flatten).headD 0 ≤ h ∧
    List.Chain' (fun p q => q ≤ p + 2 * h + 100) (positionsFrom terms 0 ss.flatten) ∧
    ss.flatten.length ≤ (positionsFrom terms 0 ss.flatten).getLastD 0 + h := by
  intro ss
  induction ss with
  | nil => intro _ hc; exact absurd rfl hc
  | cons s ss' ih =>
    intro hprops _
    have hs := hprops s (by simp)
    cases ss' with
    | nil =>
      rw [List.flatten_cons, List.flatten_nil, List.append_nil]
      exact hs
    | cons s2 rest =>
      have hrec := ih (fun x hx => hprops x (by simp [List.mem_cons.mp hx])) (by simp)
      rw [List.flatten_cons]
      have hposapp : positionsFrom terms 0 (s ++ (s2 :: rest).flatten) =
          positionsFrom terms 0 s ++
            (positionsFrom terms 0 (s2 :: rest).flatten).map (· + s.length) := by
        rw [positionsFrom_append terms s (s2 :: rest).flatten 0]
        rw [show (0 + s.length) = s.length from by omega]
        rw [positionsFrom_shift terms (s2 :: rest).flatten s.length]
      rw [hposapp]
      have hmapne : (positionsFrom terms 0 (s2 :: rest).flatten).map (· + s.length) ≠ [] := by
        intro hc
        exact hrec.1 (List.map_eq_nil_iff.mp hc)
      refine ⟨?_, ?_, ?_, ?_⟩
      · intro hc
        rcases List.append_eq_nil.mp hc with ⟨h1, _⟩
        exact hs.1 h1
      · rw [headD_append_left _ _ hs.1]
        exact hs.2.1
      · apply List.chain'_append.mpr
        refine ⟨hs.2.2.1, ?_, ?_⟩
        · rw [List.chain'_map]
          apply List.Chain'.imp ?_ hrec.2.2.1
          intro a b hab
          show b + s.length ≤ a + s.length + 2 * h + 100
          omega
        · intro x hx y hy
          rw [getLast?_eq_getLastD_of_ne_nil _ hs.1] at hx
          have hx' : (positionsFrom terms 0 s).getLastD 0 = x := by simpa using hx
          rw [head?_eq_headD_of_ne_nil _ hmapne] at hy
          have hy' : ((positionsFrom terms 0 (s2 :: rest).flatten).map (· + s.length)).headD 0
              = y := by simpa using hy
          rw [headD_map_of_ne_nil _ _ hrec.1] at hy'
          have hlen := hs.2.2.2
          have hhead2 := hrec.2.1
          omega
      · rw [List.length_append]
        rw [getLastD_append_gen _ _ 0 hmapne]
        have hlast2 : ((positionsFrom terms 0 (s2 :: rest).flatten).map (· + s.length)).getLastD 0
            = (positionsFrom terms 0 (s2 :: rest).flatten).getLastD 0 + s.length := by
          rw [getLastD_irrel _ hmapne 0 (0 + s.length)]
          exact getLastD_map_add s.length (positionsFrom terms 0 (s2 :: rest).flatten) 0
        rw [hlast2]
        have := hrec.2.2.2
        omega

/-- After one filtering pass (with at least one match and half-window at
least 1), the term positions of the output's word list are dense: the first
match is within h of the start, gaps are at most 2*h+100, and the last
match is within h of the end. -/
theorem dense_after_filter (terms : List PyStr) (wsz : Nat) (W : List PyStr)
    (hh : 1 ≤ wsz / 2)
    (hgood : ∀ w ∈ W, w ≠ [] ∧ ∀ c ∈ w, isPySpace c = false)
    (hP : find_search_term_positions terms W ≠ []) :
    find_search_term_positions terms (pySplit (filter_words terms wsz W)) ≠ [] ∧
    (find_search_term_positions terms (pySplit (filter_words terms wsz W))).headD 0 ≤ wsz / 2 ∧
    List.Chain' (fun p q => q ≤ p + 2 * (wsz / 2) + 100)
      (find_search_term_positions terms (pySplit (filter_words terms wsz W))) ∧
    (pySplit (filter_words terms wsz W)).length ≤
      (find_search_term_positions terms (pySplit (filter_words terms wsz W))).getLastD 0
        + wsz / 2 := by
  have hchainlt : List.Chain' (· < ·) (find_search_term_positions terms W) :=
    positionsFrom_sorted terms W 0
  have hlt : ∀ p ∈ find_search_term_positions terms W, p < W.length := by
    intro p hp
    have := positionsFrom_lt terms W 0 p hp
    omega
  have hrw := runsW_props (wsz / 2) W.length (find_search_term_positions terms W)
    hP hchainlt hlt
  have hfil := runs_filter_eq (wsz / 2) W.length hh
    (runsW (wsz / 2) W.length (find_search_term_positions terms W))
    (fun g hg => ⟨(hrw.2.1 g hg).1, (hrw.2.1 g hg).2.1,
      (hrw.2.1 g hg).2.2.2.1, (hrw.2.1 g hg).2.2.2.2⟩)
    hrw.2.2
  have hsplitu : pySplit (filter_words terms wsz W) =
      ((runsW (wsz / 2) W.length (find_search_term_positions terms W)).map
        (fun g => (W.drop g.1).take
          (min W.length (g.2.getLastD 0 + wsz / 2) - g.1))).flatten := by
    rw [pySplit_filter_words terms wsz W hgood hP]
    rw [merge_windows_eq_runs (wsz / 2) W.length _ hchainlt hlt]
    rw [List.map_map]
    rfl
  unfold find_search_term_positions
  rw [hsplitu]
  apply dense_concat terms (wsz / 2) _ ?_ ?_
  · intro s hs
    obtain ⟨g, hgRS, rfl⟩ := List.mem_map.mp hs
    have hg := hrw.2.1 g hgRS
    have hhdlt : g.2.headD 0 < W.length :=
      hg.2.2.2.2 _ (headD_mem_of_ne_nil g.2 hg.1)
    have haW : g.1 ≤ W.length := by
      have := hg.2.2.2.1
      omega
    have hposs : positionsFrom terms 0 ((W.drop g.1).take
        (min W.length (g.2.getLastD 0 + wsz / 2) - g.1)) =
        g.2.map (fun p => p - g.1) := by
      rw [positions_slice terms W g.1 (min W.length (g.2.getLastD 0 + wsz / 2)) haW]
      rw [show positionsFrom terms 0 W =
        ((runsW (wsz / 2) W.length (find_search_term_positions terms W)).map
          Prod.snd).flatten from hrw.1.symm]
      rw [hfil g hgRS]
    have hheadle : g.2.headD 0 ≤ g.2.getLastD 0 :=
      chain_lt_mem_le_getLastD g.2 hg.2.1 _ (headD_mem_of_ne_nil g.2 hg.1)
    refine ⟨?_, ?_, ?_, ?_⟩
    · rw [hposs]
      intro hc
      exact hg.1 (List.map_eq_nil_iff.mp hc)
    · rw [hposs, headD_map_of_ne_nil _ _ hg.1]
      show g.2.headD 0 - g.1 ≤ wsz / 2
      have := hg.2.2.2.1
      omega
    · rw [hposs, List.chain'_map]
      apply List.Chain'.imp ?_ hg.2.2.1
      intro a b hab
      show b - g.1 ≤ a - g.1 + 2 * (wsz / 2) + 100
      omega
    · rw [hposs]
      have hmap : (g.2.map (fun p => p - g.1)).getLastD 0 = g.2.getLastD 0 - g.1 := by
        have := getLastD_map_sub g.1 g.2 0
        rw [Nat.zero_sub] at this
        exact this
      rw [hmap, List.length_take, List.length_drop]
      have := hg.2.2.2.1
      omega
  · intro hc
    apply hP
    rw [← hrw.1, List.map_eq_nil_iff.mp hc]
    rfl

/-- A word list with dense term positions filters to the plain space-join
of all its words: the single merged window covers everything. -/
theorem filter_words_of_dense (terms : List PyStr) (wsz : Nat) (W : List PyStr)
    (hQne : find_search_term_positions terms W ≠ [])
    (hhead : (find_search_term_positions terms W).headD 0 ≤ wsz / 2)
    (hchain : List.Chain' (fun p q => q ≤ p + 2 * (wsz / 2) + 100)
      (find_search_term_positions terms W))
    (hlen : W.length ≤ (find_search_term_positions terms W).getLastD 0 + wsz / 2) :
    filter_words terms wsz W = joinSep (pyStr (" ")) W := by
  unfold filter_words
  rw [if_neg hQne]
  have hchainlt : List.Chain' (· < ·) (find_search_term_positions terms W) :=
    positionsFrom_sorted terms W 0
  have hlt : ∀ p ∈ find_search_term_positions terms W, p < W.length := by
    intro p hp
    have := positionsFrom_lt terms W 0 p hp
    omega
  rw [merge_windows_eq_runs (wsz / 2) W.length _ hchainlt hlt]
  cases hQ : find_search_term_positions terms W with
  | nil => exact absurd hQ hQne
  | cons q qs =>
    rw [hQ] at hhead hchain hlen hlt
    rw [show runsW (wsz / 2) W.length (q :: qs) =
      runsAuxW (wsz / 2) W.length (q - wsz / 2) [q] q qs from rfl]
    rw [runsAuxW_single (wsz / 2) W.length qs (q - wsz / 2) q [q] rfl hchain
      (fun x hx => hlt x (by simp [hx]))]
    have h1 : q - wsz / 2 = 0 := by
      have : (q :: qs).headD 0 = q := rfl
      rw [this] at hhead
      omega
    have h2 : min W.length (((q :: qs) : List Nat).getLastD 0 + wsz / 2) = W.length := by
      omega
    rw [List.map_cons, List.map_nil]
    show joinSep (pyStr ("\n\n")) (extract_sections W
      [(q - wsz / 2, min W.length (([q] ++ qs).getLastD 0 + wsz / 2))]) = _
    rw [show (([q] ++ qs) : List Nat) = q :: qs from rfl, h1, h2]
    show joinSep (pyStr ("\n\n"))
      [joinSep (pyStr (" ")) ((W.drop 0).take (W.length - 0))] = _
    rw [List.drop_zero, Nat.sub_zero, List.take_length]
    rfl

/-- C9 counterexample: with search term "x" and window size 0 the filter
keeps shrinking the text "x x x x" on every pass (each zero-width window
drops the match word itself from the window end), so the third application
still differs from the second. -/
theorem c9_counterexample :
    filter_text [pyStr ("x")] 0 (filter_text [pyStr ("x")] 0
        (filter_text [pyStr ("x")] 0 (pyStr ("x x x x")))) ≠
      filter_text [pyStr ("x")] 0 (filter_text [pyStr ("x")] 0 (pyStr ("x x x x"))) := by
  decide

/-- C9 (amended): for non-empty search terms and window size at least 2,
two filtering passes reach a fixed point - the third application returns
the second application's output unchanged. -/
theorem c9_filter_two_pass_fixed_point (search_terms : List PyStr) (window_size : Nat)
    (t : PyStr) (hterms : search_terms ≠ []) (hwsz : 2 ≤ window_size) :
    filter_text search_terms window_size (filter_text search_terms window_size
        (filter_text search_terms window_size t)) =
      filter_text search_terms window_size (filter_text search_terms window_size t) := by
  have hh : 1 ≤ window_size / 2 := by omega
  by_cases ht : t = []
  · subst ht
    have e0 : filter_text search_terms window_size [] = [] := by
      unfold filter_text
      rw [if_pos rfl]
    rw [e0, e0, e0]
  · have e1 : filter_text search_terms window_size t =
        filter_words search_terms window_size (pySplit t) := by
      unfold filter_text
      rw [if_neg ht, if_neg hterms]
    by_cases hP : find_search_term_positions search_terms (pySplit t) = []
    · have e2 : filter_words search_terms window_size (pySplit t) = [] := by
        unfold filter_words
        rw [if_pos hP]
      have e3 : filter_text search_terms window_size [] = [] := by
        unfold filter_text
        rw [if_pos rfl]
      rw [e1, e2, e3, e3]
    · have hW := pySplit_tokens_good t
      obtain ⟨hQne, hQhead, hQchain, hQlen⟩ :=
        dense_after_filter search_terms window_size (pySplit t) hh hW hP
      have hune : filter_words search_terms window_size (pySplit t) ≠ [] := by
        intro h0
        apply hQne
        rw [h0]
        rfl
      have e2 : filter_text search_terms window_size
          (filter_words search_terms window_size (pySplit t)) =
          filter_words search_terms window_size
            (pySplit (filter_words search_terms window_size (pySplit t))) := by
        unfold filter_text
        rw [if_neg hune, if_neg hterms]
      have e3 : filter_words search_terms window_size
          (pySplit (filter_words search_terms window_size (pySplit t))) =
          joinSep (pyStr (" "))
            (pySplit (filter_words search_terms window_size (pySplit t))) :=
        filter_words_of_dense search_terms window_size
          (pySplit (filter_words search_terms window_size (pySplit t)))
          hQne hQhead hQchain hQlen
      have hgood_u := pySplit_tokens_good (filter_words search_terms window_size (pySplit t))
      have e4 : pySplit (joinSep (pyStr (" "))
          (pySplit (filter_words search_terms window_size (pySplit t)))) =
          pySplit (filter_words search_terms window_size (pySplit t)) :=
        pySplit_joinSep_space _ hgood_u
      have hsplitne : pySplit (filter_words search_terms window_size (pySplit t)) ≠ [] := by
        intro h0
        apply hQne
        rw [h0]
        rfl
      have hne2 : joinSep (pyStr (" "))
          (pySplit (filter_words search_terms window_size (pySplit t))) ≠ [] := by
        intro h0
        apply hsplitne
        rw [← e4, h0]
        rfl
      have e5 : filter_text search_terms window_size (joinSep (pyStr (" "))
          (pySplit (filter_words search_terms window_size (pySplit t)))) =
          filter_words search_terms window_size (pySplit (joinSep (pyStr (" "))
            (pySplit (filter_words search_terms window_size (pySplit t))))) := by
        unfold filter_text
        rw [if_neg hne2, if_neg hterms]
      rw [e1, e2, e3, e5, e4, e3]

/-- Witness for the amended C9 theorem on a concrete text. -/
theorem c9_fixed_point_witness :
    ([pyStr ("x")] : List PyStr) ≠ [] ∧ 2 ≤ 4 ∧
    filter_text [pyStr ("x")] 4 (filter_text [pyStr ("x")] 4
        (filter_text [pyStr ("x")] 4 (pyStr ("x a b x")))) =
      filter_text [pyStr ("x")] 4 (filter_text [pyStr ("x")] 4 (pyStr ("x a b x"))) :=
  ⟨by decide, by decide,
   c9_filter_two_pass_fixed_point [pyStr ("x")] 4 (pyStr ("x a b x"))
     (by decide) (by decide)⟩
